import Mathlib

/-!
Verification of the Entry-tree, activity-log decoding, cancellation-book and
activity-cursor components of the next-client synchronisation engine.

The definitions below are a shallow embedding of the Rust source:
  * path utilities and the Entry tree come from src/lib.rs;
  * activity-log element decoding and the NCState cursor come from src/nc_listen.rs;
  * the cancellation book operations come from src/local_listen.rs and
    src/nc_listen.rs (update_and_download).

Modelling conventions:
  * Arc/Mutex shared handles become plain values; functions that mutate a tree
    in place are threaded explicitly and return the updated tree, and they
    return the partially-mutated tree together with the error when the Rust
    code returns Err after having already mutated.
  * Weak handles placed into result vectors are modelled by a snapshot of the
    pointed-to entry at push time.
  * The HashMap of children is modelled by an association list: insert
    replaces the value at the first occurrence of the key or appends a fresh
    binding; remove deletes the first occurrence.
  * Rust panics (vector index out of bounds, integer parse .expect) are
    modelled by an explicit error or Option none.
  * Rust Vec::pop removes the last element; the recursive tree walkers below
    receive the path vector reversed so that the pop becomes a head match.
-/

/-! ## Path utilities (src/lib.rs lines 44-93, 308-328) -/

/-- Test for the regex RE_HAS_LAST_SLASH = "(.*)/$": a match exists exactly
when the string ends with a slash. -/
def endsSlash (s : String) : Bool :=
  match s.data.getLast? with
  | some c => c = '/'
  | none => false

/-- Test for the regex RE_HAS_HEAD_SLASH = "^/(.*)". -/
def startsSlash (s : String) : Bool :=
  match s.data with
  | '/' :: _ => true
  | _ => false

/-- drop_slash(s, RE_HAS_LAST_SLASH): replace the match of "(.*)/$" by its
first capture group, i.e. drop one trailing slash when present. -/
def drop_last_slash (s : String) : String :=
  if endsSlash s then String.mk s.data.dropLast else s

/-- add_head_slash from src/lib.rs. -/
def add_head_slash (s : String) : String :=
  if startsSlash s then s else "/" ++ s

/-- add_last_slash from src/lib.rs. -/
def add_last_slash (s : String) : String :=
  if endsSlash s then s else s ++ "/"

/-- Rust str::split('/'): pieces between slashes, empty pieces kept. -/
def splitSlashAux : List Char → List Char → List String
  | [], acc => [String.mk acc.reverse]
  | c :: rest, acc =>
    if c = '/' then String.mk acc.reverse :: splitSlashAux rest []
    else splitSlashAux rest (c :: acc)

/-- Rust path.split("/") collected into a list. -/
def splitSlash (s : String) : List String :=
  splitSlashAux s.data []

/-- The enumerate-and-map step of Entry::prepare_path_vec: every piece except
the last one receives a trailing slash (Rust: if i < len - 1). -/
def markInit : List String → List String
  | [] => []
  | [x] => [x]
  | x :: y :: rest => (x ++ "/") :: markInit (y :: rest)

/-! ## Entry data model (src/lib.rs lines 95-228) -/

inductive EntryType where
  | File (etag : Option String)
  | Directory
deriving DecidableEq, Repr

/-- EntryType::is_file. -/
def EntryType.is_file : EntryType → Bool
  | .File _ => true
  | .Directory => false

/-- EntryType::is_dir. -/
def EntryType.is_dir (t : EntryType) : Bool :=
  !t.is_file

/-- EntryType::guess_from_name: a trailing slash means a directory. -/
def EntryType.guess_from_name (name : String) : EntryType :=
  if endsSlash name then .Directory else .File none

inductive EntryStatus where
  | UpToDate
  | NeedUpdate
  | Error
deriving DecidableEq, Repr

/-- A node of the Entry tree.  The Rust struct stores an optional weak
back-reference to the parent; the pure model only records whether that
back-reference is present (hasParent), which is what is_root inspects. -/
inductive Entry where
  | mk (name : String) (hasParent : Bool) (status : EntryStatus)
       (type_ : EntryType) (children : List (String × Entry))

def Entry.name : Entry → String
  | .mk n _ _ _ _ => n

def Entry.hasParent : Entry → Bool
  | .mk _ p _ _ _ => p

def Entry.status : Entry → EntryStatus
  | .mk _ _ s _ _ => s

def Entry.type_ : Entry → EntryType
  | .mk _ _ _ t _ => t

def Entry.children : Entry → List (String × Entry)
  | .mk _ _ _ _ c => c

def Entry.withChildren : Entry → List (String × Entry) → Entry
  | .mk n p s t _, c => .mk n p s t c

def Entry.withStatus : Entry → EntryStatus → Entry
  | .mk n p _ t c, s => .mk n p s t c

def Entry.withHasParent : Entry → Bool → Entry
  | .mk n _ s t c, p => .mk n p s t c

/-- Entry::new: drops a trailing slash from the name, status NeedUpdate,
no parent, no children. -/
def Entry.new (name : String) (type_ : EntryType) : Entry :=
  .mk (drop_last_slash name) false .NeedUpdate type_ []

/-- Entry::get_name: the raw name, plus a trailing slash for a directory. -/
def Entry.get_name (e : Entry) : String :=
  e.name ++ (match e.type_ with | .Directory => "/" | _ => "")

/-- Entry::set_name (drops a trailing slash like the source). -/
def Entry.set_name (e : Entry) (new_name : String) : Entry :=
  match e with
  | .mk _ p s t c => .mk (drop_last_slash new_name) p s t c

/-- Entry::is_root: empty name and no parent back-reference. -/
def Entry.is_root (e : Entry) : Bool :=
  e.name = "" && !e.hasParent

/-! ## Association-list model of the children HashMap -/

/-- HashMap::get. -/
def lookupA {α : Type} : List (String × α) → String → Option α
  | [], _ => none
  | (k, v) :: rest, key => if k = key then some v else lookupA rest key

/-- HashMap::insert: replace the value at the first occurrence of the key, or
append a fresh binding. -/
def insertA {α : Type} : List (String × α) → String → α → List (String × α)
  | [], key, v => [(key, v)]
  | (k, w) :: rest, key, v =>
    if k = key then (key, v) :: rest else (k, w) :: insertA rest key v

/-- HashMap::remove: returns the removed value (if any) and the remaining
bindings. -/
def removeA {α : Type} : List (String × α) → String → Option α × List (String × α)
  | [], _ => (none, [])
  | (k, v) :: rest, key =>
    if k = key then (some v, rest)
    else
      let r := removeA rest key
      (r.1, (k, v) :: r.2)

/-- Entry::append_child: set the child's parent back-reference and insert it
into the children map under the child's get_name. -/
def Entry.append_child (parent child : Entry) : Entry :=
  let c := child.withHasParent true
  parent.withChildren (insertA parent.children c.get_name c)

/-! ## Tree operations (src/lib.rs lines 308-561) -/

inductive TreeErr where
  | alreadyExist
  | invalidPath (s : String)
  | notDirectory
  | panicked
deriving DecidableEq, Repr

/-- Entry::prepare_path_vec: split on slashes, give every non-final piece a
trailing slash, reverse, and drop an empty head. -/
def Entry.prepare_path_vec (path : String) : List String :=
  let path_vec := (markInit (splitSlash path)).reverse
  match path_vec with
  | [] => []
  | x :: rest => if x = "" then rest else path_vec

/-- Entry::get_rec.  The argument list is the Rust path_vec reversed, so the
Vec::pop from the end becomes a head match.  The .panicked branch models the
Rust indexing path_vec[len - 1] with len = 0. -/
def Entry.get_rec : Entry → List String → Except TreeErr (Option Entry)
  | _, [] => .ok none
  | e, nm :: rest =>
    if e.get_name ≠ nm then .ok none
    else if e.type_.is_file then .error .notDirectory
    else
      match rest with
      | [] => .error .panicked
      | seg :: rest2 =>
        match lookupA e.children seg with
        | none => .ok none
        | some c =>
          if c.type_.is_file then .ok (some c)
          else if rest2.isEmpty then .ok (some c)
          else Entry.get_rec c rest

/-- Entry::get. -/
def Entry.get (this : Entry) (path : String) : Except TreeErr (Option Entry) :=
  if !this.is_root then .ok none
  else
    if (Entry.prepare_path_vec path).length = 0 then .ok none
    else if (Entry.prepare_path_vec path).length = 1 then
      if (Entry.prepare_path_vec path).head? = some "/" then .ok (some this) else .ok none
    else Entry.get_rec this (Entry.prepare_path_vec path).reverse

/-- Entry::pop_rec, with the reversed path vector and explicit threading of
the mutated receiver. -/
def Entry.pop_rec : Entry → List String → Except TreeErr (Option Entry) × Entry
  | e, [] => (.ok none, e)
  | e, nm :: rest =>
    if e.get_name ≠ nm then (.ok none, e)
    else if e.type_.is_file then (.error .notDirectory, e)
    else
      match rest with
      | [] => (.error .panicked, e)
      | seg :: rest2 =>
        if rest2.isEmpty then
          match removeA e.children seg with
          | (none, _) => (.ok none, e)
          | (some t, rest') =>
            (.ok (some (t.withHasParent false)), e.withChildren rest')
        else
          match lookupA e.children seg with
          | none => (.ok none, e)
          | some c =>
            if c.type_.is_file then (.ok none, e)
            else
              let r := Entry.pop_rec c rest
              (r.1, e.withChildren (insertA e.children seg r.2))

/-- Entry::pop. -/
def Entry.pop (root : Entry) (path : String) : Except TreeErr (Option Entry) × Entry :=
  if !root.is_root then (.ok none, root)
  else Entry.pop_rec root (Entry.prepare_path_vec path).reverse

inductive AppendMode where
  | Create
  | Move
deriving DecidableEq, Repr

/-- Prepend a pushed pair onto the accumulated vector when the recursion
returned Ok; an Err discards the vector (the Rust vector lives in the caller,
but an erring append throws it away). -/
def consAcc (x : Entry × EntryStatus) :
    Except TreeErr (List (Entry × EntryStatus)) → Except TreeErr (List (Entry × EntryStatus))
  | .ok acc => .ok (x :: acc)
  | .error err => .error err

/-- Entry::append_rec, with the reversed path vector.  The returned list
models the new_local_entries vector of (weak handle, status) pairs; on error
the vector is discarded by the caller but the tree mutations performed so far
are kept, which the returned Entry reflects. -/
def Entry.append_rec : Entry → List String → Entry → AppendMode →
    Except TreeErr (List (Entry × EntryStatus)) × Entry
  | parent, [], _, _ => (.error (.invalidPath parent.get_name), parent)
  | parent, nm :: rest, entry, mode =>
    if parent.get_name ≠ nm then (.error (.invalidPath parent.get_name), parent)
    else if parent.type_.is_file then (.error .notDirectory, parent)
    else
      match rest with
      | seg :: rest2 =>
        if rest2.isEmpty then
          let entry' := entry.withStatus .NeedUpdate
          let acc := if mode = .Create then [(entry', EntryStatus.NeedUpdate)] else []
          (.ok acc, parent.append_child entry')
        else
          match lookupA parent.children seg with
          | some c =>
            if c.type_.is_file then (.error (.invalidPath c.get_name), parent)
            else
              let r := Entry.append_rec c rest entry mode
              (r.1, parent.withChildren (insertA parent.children seg r.2))
          | none =>
            let newE := Entry.new seg .Directory
            let r := Entry.append_rec (newE.withHasParent true) rest entry mode
            (consAcc (newE, EntryStatus.UpToDate) r.1, parent.append_child r.2)
      | [] =>
        let entry' := entry.withStatus .NeedUpdate
        let acc := if mode = .Create then [(entry', EntryStatus.NeedUpdate)] else []
        (.ok acc, parent.append_child entry')

/-- The two lookups of Entry::append lines 446-447, with the short-circuit of
the Rust || and the early return of the ? operator. -/
def Entry.append_existing (root : Entry) (path : String) : Except TreeErr Bool :=
  match Entry.get root (add_last_slash path) with
  | .error er => .error er
  | .ok r1 =>
    if r1.isSome then .ok true
    else
      match Entry.get root path with
      | .error er => .error er
      | .ok r2 => .ok r2.isSome

/-- Entry::append.  The .panicked branch models the Rust indexing
path_vec[0] on an empty vector. -/
def Entry.append (root_entry : Entry) (path : String) (entry : Entry)
    (append_mode : AppendMode) (overwrite : Bool) :
    Except TreeErr (List (Entry × EntryStatus)) × Entry :=
  if !root_entry.is_root then (.ok [], root_entry)
  else
    match Entry.append_existing root_entry path with
    | .error er => (.error er, root_entry)
    | .ok already_exist =>
      if !overwrite && already_exist then (.error .alreadyExist, root_entry)
      else
        match Entry.prepare_path_vec path with
        | [] => (.error .panicked, root_entry)
        | pv0 :: pvrest =>
          if pv0 ≠ entry.get_name then
            match append_mode with
            | .Move =>
              if already_exist && (EntryType.guess_from_name path).is_dir then
                Entry.append_rec root_entry
                  ((entry.get_name :: pv0 :: pvrest).reverse) entry .Move
              else
                Entry.append_rec root_entry ((pv0 :: pvrest).reverse)
                  (entry.set_name pv0) .Move
            | .Create => (.error (.invalidPath path), root_entry)
          else
            Entry.append_rec root_entry ((pv0 :: pvrest).reverse) entry append_mode

example : Entry.prepare_path_vec "/" = ["/"] := by decide
example : Entry.prepare_path_vec "/a/b/c.md" = ["c.md", "b/", "a/", "/"] := by decide
example : Entry.prepare_path_vec "" = [] := by decide
example : Entry.prepare_path_vec "/a/" = ["a/", "/"] := by decide

/-! ## Basic lemmas about the model -/

@[simp] theorem Entry.name_mk (n p s t c) : (Entry.mk n p s t c).name = n := rfl

@[simp] theorem Entry.hasParent_mk (n p s t c) : (Entry.mk n p s t c).hasParent = p := rfl

@[simp] theorem Entry.status_mk (n p s t c) : (Entry.mk n p s t c).status = s := rfl

@[simp] theorem Entry.type_mk (n p s t c) : (Entry.mk n p s t c).type_ = t := rfl

@[simp] theorem Entry.children_mk (n p s t c) : (Entry.mk n p s t c).children = c := rfl

@[simp] theorem Entry.name_withChildren (e : Entry) (c) : (e.withChildren c).name = e.name := by
  cases e; rfl

@[simp] theorem Entry.hasParent_withChildren (e : Entry) (c) :
    (e.withChildren c).hasParent = e.hasParent := by
  cases e; rfl

@[simp] theorem Entry.status_withChildren (e : Entry) (c) :
    (e.withChildren c).status = e.status := by
  cases e; rfl

@[simp] theorem Entry.type_withChildren (e : Entry) (c) :
    (e.withChildren c).type_ = e.type_ := by
  cases e; rfl

@[simp] theorem Entry.children_withChildren (e : Entry) (c) :
    (e.withChildren c).children = c := by
  cases e; rfl

@[simp] theorem Entry.name_withStatus (e : Entry) (s) : (e.withStatus s).name = e.name := by
  cases e; rfl

@[simp] theorem Entry.hasParent_withStatus (e : Entry) (s) :
    (e.withStatus s).hasParent = e.hasParent := by
  cases e; rfl

@[simp] theorem Entry.status_withStatus (e : Entry) (s) : (e.withStatus s).status = s := by
  cases e; rfl

@[simp] theorem Entry.type_withStatus (e : Entry) (s) : (e.withStatus s).type_ = e.type_ := by
  cases e; rfl

@[simp] theorem Entry.children_withStatus (e : Entry) (s) :
    (e.withStatus s).children = e.children := by
  cases e; rfl

@[simp] theorem Entry.name_withHasParent (e : Entry) (b) : (e.withHasParent b).name = e.name := by
  cases e; rfl

@[simp] theorem Entry.hasParent_withHasParent (e : Entry) (b) :
    (e.withHasParent b).hasParent = b := by
  cases e; rfl

@[simp] theorem Entry.status_withHasParent (e : Entry) (b) :
    (e.withHasParent b).status = e.status := by
  cases e; rfl

@[simp] theorem Entry.type_withHasParent (e : Entry) (b) :
    (e.withHasParent b).type_ = e.type_ := by
  cases e; rfl

@[simp] theorem Entry.children_withHasParent (e : Entry) (b) :
    (e.withHasParent b).children = e.children := by
  cases e; rfl

theorem Entry.withChildren_children (e : Entry) : e.withChildren e.children = e := by
  cases e; rfl

@[simp] theorem Entry.get_name_withChildren (e : Entry) (c) :
    (e.withChildren c).get_name = e.get_name := by
  cases e; rfl

@[simp] theorem Entry.get_name_withStatus (e : Entry) (s) :
    (e.withStatus s).get_name = e.get_name := by
  cases e; rfl

@[simp] theorem Entry.get_name_withHasParent (e : Entry) (b) :
    (e.withHasParent b).get_name = e.get_name := by
  cases e; rfl

@[simp] theorem Entry.is_root_withChildren (e : Entry) (c) :
    (e.withChildren c).is_root = e.is_root := by
  cases e; rfl

theorem Entry.eq_mk (e : Entry) :
    e = Entry.mk e.name e.hasParent e.status e.type_ e.children := by
  cases e; rfl

/-! ### Association-list lemmas -/

theorem lookupA_insertA_self {α : Type} (l : List (String × α)) (k : String) (v : α) :
    lookupA (insertA l k v) k = some v := by
  induction l with
  | nil => simp [insertA, lookupA]
  | cons kw rest ih =>
    obtain ⟨k', w⟩ := kw
    by_cases h : k' = k
    · simp [insertA, h, lookupA]
    · simp [insertA, h, lookupA, ih]

theorem lookupA_insertA_ne {α : Type} (l : List (String × α)) (k q : String) (v : α)
    (h : q ≠ k) : lookupA (insertA l k v) q = lookupA l q := by
  have hk' : k ≠ q := Ne.symm h
  induction l with
  | nil => simp [insertA, lookupA, hk']
  | cons kw rest ih =>
    obtain ⟨k', w⟩ := kw
    by_cases hk : k' = k
    · subst hk
      simp [insertA, lookupA, hk']
    · by_cases hq : k' = q
      · simp [insertA, hk, lookupA, hq, h]
      · simp [insertA, hk, lookupA, hq, ih]

theorem insertA_insertA {α : Type} (l : List (String × α)) (k : String) (v w : α) :
    insertA (insertA l k v) k w = insertA l k w := by
  induction l with
  | nil => simp [insertA]
  | cons kw rest ih =>
    obtain ⟨k', u⟩ := kw
    by_cases h : k' = k
    · simp [insertA, h]
    · simp [insertA, h, ih]

theorem insertA_lookup_eq {α : Type} (l : List (String × α)) (k : String) (v : α)
    (h : lookupA l k = some v) : insertA l k v = l := by
  induction l with
  | nil => simp [lookupA] at h
  | cons kw rest ih =>
    obtain ⟨k', u⟩ := kw
    by_cases hk : k' = k
    · subst hk
      simp [lookupA] at h
      simp [insertA, h]
    · simp [lookupA, hk] at h
      simp [insertA, hk, ih h]

theorem insertA_of_lookup_none {α : Type} (l : List (String × α)) (k : String) (v : α)
    (h : lookupA l k = none) : insertA l k v = l ++ [(k, v)] := by
  induction l with
  | nil => simp [insertA]
  | cons kw rest ih =>
    obtain ⟨k', u⟩ := kw
    by_cases hk : k' = k
    · simp [lookupA, hk] at h
    · simp [lookupA, hk] at h
      simp [insertA, hk, ih h]

theorem removeA_append_fresh {α : Type} (l : List (String × α)) (k : String) (v : α)
    (h : lookupA l k = none) : removeA (l ++ [(k, v)]) k = (some v, l) := by
  induction l with
  | nil => simp [removeA]
  | cons kw rest ih =>
    obtain ⟨k', u⟩ := kw
    by_cases hk : k' = k
    · simp [lookupA, hk] at h
    · simp [lookupA, hk] at h
      simp [removeA, hk, ih h]

theorem lookupA_mem {α : Type} (l : List (String × α)) (k : String) (v : α)
    (h : lookupA l k = some v) : (k, v) ∈ l := by
  induction l with
  | nil => simp [lookupA] at h
  | cons kw rest ih =>
    obtain ⟨k', u⟩ := kw
    by_cases hk : k' = k
    · subst hk
      simp [lookupA] at h
      simp [h]
    · simp [lookupA, hk] at h
      exact List.mem_cons_of_mem _ (ih h)

/-! ### Path-vector structure lemmas -/

theorem endsSlash_append_slash (s : String) : endsSlash (s ++ "/") = true := by
  simp [endsSlash, String.data_append]

theorem ne_empty_of_endsSlash {s : String} (h : endsSlash s = true) : s ≠ "" := by
  intro he
  subst he
  simp [endsSlash] at h

theorem splitSlashAux_ne_nil (cs acc) : splitSlashAux cs acc ≠ [] := by
  induction cs generalizing acc with
  | nil => simp [splitSlashAux]
  | cons c rest ih =>
    by_cases h : c = '/'
    · simp [splitSlashAux, h]
    · simp [splitSlashAux, h]
      exact ih _

theorem splitSlash_ne_nil (s : String) : splitSlash s ≠ [] :=
  splitSlashAux_ne_nil _ _

theorem markInit_ne_nil {l : List String} (h : l ≠ []) : markInit l ≠ [] := by
  match l with
  | [] => exact absurd rfl h
  | [x] => simp [markInit]
  | x :: y :: rest => simp [markInit]

theorem markInit_dropLast_slash (l : List String) :
    ∀ x ∈ (markInit l).dropLast, endsSlash x = true := by
  induction l with
  | nil => simp [markInit]
  | cons x xs ih =>
    match xs with
    | [] => simp [markInit]
    | y :: ys =>
      intro z hz
      rw [markInit, List.dropLast_cons_of_ne_nil (markInit_ne_nil (by simp))] at hz
      rcases List.mem_cons.mp hz with h | h
      · subst h
        exact endsSlash_append_slash x
      · exact ih z h

theorem ppv_rest_facts {p : String} {x : String} {rest : List String}
    (h : Entry.prepare_path_vec p = x :: rest) :
    x ≠ "" ∧ ∀ y ∈ rest, endsSlash y = true := by
  have hM : markInit (splitSlash p) ≠ [] := markInit_ne_nil (splitSlash_ne_nil p)
  have hMr : (markInit (splitSlash p)).reverse ≠ [] := by
    simpa using hM
  unfold Entry.prepare_path_vec at h
  have htail : ∀ y ∈ (markInit (splitSlash p)).reverse.tail, endsSlash y = true := by
    intro y hy
    rw [List.tail_reverse] at hy
    exact markInit_dropLast_slash _ y (List.mem_reverse.mp hy)
  match hrev : (markInit (splitSlash p)).reverse with
  | [] => exact absurd hrev hMr
  | a :: as =>
    rw [hrev] at h
    have has : ∀ y ∈ as, endsSlash y = true := by
      intro y hy
      apply htail
      rw [hrev]
      simpa using hy
    by_cases ha : a = ""
    · simp only [ha, if_pos rfl] at h
      subst h
      constructor
      · intro hx
        have := has x (by simp)
        rw [hx] at this
        simp [endsSlash] at this
      · intro y hy
        exact has y (List.mem_cons_of_mem _ hy)
    · simp only [if_neg ha] at h
      cases h
      exact ⟨ha, has⟩

/-! ### Unfolding equations for the recursive tree walkers -/

theorem Entry.get_rec_nil (e : Entry) : Entry.get_rec e [] = .ok none := rfl

theorem Entry.get_rec_one (e : Entry) (nm : String) :
    Entry.get_rec e [nm] =
    if e.get_name ≠ nm then .ok none
    else if e.type_.is_file then .error .notDirectory
    else .error .panicked := rfl

theorem Entry.get_rec_two (e : Entry) (nm seg : String) (rest2 : List String) :
    Entry.get_rec e (nm :: seg :: rest2) =
    if e.get_name ≠ nm then .ok none
    else if e.type_.is_file then .error .notDirectory
    else
      match lookupA e.children seg with
      | none => .ok none
      | some c =>
        if c.type_.is_file then .ok (some c)
        else if rest2.isEmpty then .ok (some c)
        else Entry.get_rec c (seg :: rest2) := rfl

theorem Entry.pop_rec_nil (e : Entry) : Entry.pop_rec e [] = (.ok none, e) := rfl

theorem Entry.pop_rec_one (e : Entry) (nm : String) :
    Entry.pop_rec e [nm] =
    if e.get_name ≠ nm then (.ok none, e)
    else if e.type_.is_file then (.error .notDirectory, e)
    else (.error .panicked, e) := rfl

theorem Entry.pop_rec_two (e : Entry) (nm seg : String) (rest2 : List String) :
    Entry.pop_rec e (nm :: seg :: rest2) =
    if e.get_name ≠ nm then (.ok none, e)
    else if e.type_.is_file then (.error .notDirectory, e)
    else
      if rest2.isEmpty then
        match removeA e.children seg with
        | (none, _) => (.ok none, e)
        | (some t, rest') =>
          (.ok (some (t.withHasParent false)), e.withChildren rest')
      else
        match lookupA e.children seg with
        | none => (.ok none, e)
        | some c =>
          if c.type_.is_file then (.ok none, e)
          else
            let r := Entry.pop_rec c (seg :: rest2)
            (r.1, e.withChildren (insertA e.children seg r.2)) := rfl

theorem Entry.append_rec_nil (parent entry : Entry) (mode : AppendMode) :
    Entry.append_rec parent [] entry mode = (.error (.invalidPath parent.get_name), parent) := rfl

theorem Entry.append_rec_one (parent : Entry) (nm : String) (entry : Entry) (mode : AppendMode) :
    Entry.append_rec parent [nm] entry mode =
    if parent.get_name ≠ nm then (.error (.invalidPath parent.get_name), parent)
    else if parent.type_.is_file then (.error .notDirectory, parent)
    else
      (.ok (if mode = .Create
              then [(entry.withStatus .NeedUpdate, EntryStatus.NeedUpdate)] else []),
       parent.append_child (entry.withStatus .NeedUpdate)) := rfl

theorem Entry.append_rec_two (parent : Entry) (nm seg : String) (rest2 : List String)
    (entry : Entry) (mode : AppendMode) :
    Entry.append_rec parent (nm :: seg :: rest2) entry mode =
    if parent.get_name ≠ nm then (.error (.invalidPath parent.get_name), parent)
    else if parent.type_.is_file then (.error .notDirectory, parent)
    else
      if rest2.isEmpty then
        (.ok (if mode = .Create
                then [(entry.withStatus .NeedUpdate, EntryStatus.NeedUpdate)] else []),
         parent.append_child (entry.withStatus .NeedUpdate))
      else
        match lookupA parent.children seg with
        | some c =>
          if c.type_.is_file then (.error (.invalidPath c.get_name), parent)
          else
            let r := Entry.append_rec c (seg :: rest2) entry mode
            (r.1, parent.withChildren (insertA parent.children seg r.2))
        | none =>
          let newE := Entry.new seg .Directory
          let r := Entry.append_rec (newE.withHasParent true) (seg :: rest2) entry mode
          (consAcc (newE, EntryStatus.UpToDate) r.1, parent.append_child r.2) := rfl

/-! ### Shape lemmas for append_rec -/

theorem Entry.append_rec_snd (parent : Entry) (rpv : List String) (entry : Entry)
    (mode : AppendMode) :
    ∃ cs, (Entry.append_rec parent rpv entry mode).2 = parent.withChildren cs := by
  match rpv with
  | [] => exact ⟨parent.children, by rw [Entry.append_rec_nil, Entry.withChildren_children]⟩
  | [nm] =>
    rw [Entry.append_rec_one]
    split
    · exact ⟨parent.children, (Entry.withChildren_children parent).symm⟩
    · split
      · exact ⟨parent.children, (Entry.withChildren_children parent).symm⟩
      · exact ⟨_, rfl⟩
  | nm :: seg :: rest2 =>
    rw [Entry.append_rec_two]
    split
    · exact ⟨parent.children, (Entry.withChildren_children parent).symm⟩
    · split
      · exact ⟨parent.children, (Entry.withChildren_children parent).symm⟩
      · split
        · exact ⟨_, rfl⟩
        · split
          · split
            · exact ⟨parent.children, (Entry.withChildren_children parent).symm⟩
            · exact ⟨_, rfl⟩
          · exact ⟨_, rfl⟩

theorem Entry.append_rec_name (parent : Entry) (rpv : List String) (entry : Entry)
    (mode : AppendMode) :
    (Entry.append_rec parent rpv entry mode).2.name = parent.name := by
  obtain ⟨cs, h⟩ := Entry.append_rec_snd parent rpv entry mode
  rw [h]
  simp

theorem Entry.append_rec_type (parent : Entry) (rpv : List String) (entry : Entry)
    (mode : AppendMode) :
    (Entry.append_rec parent rpv entry mode).2.type_ = parent.type_ := by
  obtain ⟨cs, h⟩ := Entry.append_rec_snd parent rpv entry mode
  rw [h]
  simp

theorem Entry.append_rec_get_name (parent : Entry) (rpv : List String) (entry : Entry)
    (mode : AppendMode) :
    (Entry.append_rec parent rpv entry mode).2.get_name = parent.get_name := by
  obtain ⟨cs, h⟩ := Entry.append_rec_snd parent rpv entry mode
  rw [h]
  simp

theorem Entry.append_rec_is_root (parent : Entry) (rpv : List String) (entry : Entry)
    (mode : AppendMode) :
    (Entry.append_rec parent rpv entry mode).2.is_root = parent.is_root := by
  obtain ⟨cs, h⟩ := Entry.append_rec_snd parent rpv entry mode
  rw [h]
  simp

/-- The intermediate directories missing along a (reversed) path vector:
exactly the segments for which Entry::append_rec materialises a placeholder
directory, mirroring its descent. -/
def missingSegs : Entry → List String → List String
  | parent, _ :: seg :: rest2 =>
    if rest2.isEmpty then []
    else
      match lookupA parent.children seg with
      | some c => missingSegs c (seg :: rest2)
      | none => seg :: missingSegs ((Entry.new seg .Directory).withHasParent true) (seg :: rest2)
  | _, _ => []

theorem missingSegs_nil (parent : Entry) : missingSegs parent [] = [] := rfl

theorem missingSegs_single (parent : Entry) (nm : String) : missingSegs parent [nm] = [] := rfl

theorem missingSegs_two (parent : Entry) (nm seg : String) (rest2 : List String) :
    missingSegs parent (nm :: seg :: rest2) =
    if rest2.isEmpty then []
    else
      match lookupA parent.children seg with
      | some c => missingSegs c (seg :: rest2)
      | none => seg :: missingSegs ((Entry.new seg .Directory).withHasParent true)
                  (seg :: rest2) := rfl

/-- In Create mode a successful append_rec returns one placeholder snapshot
per missing intermediate directory (tagged UpToDate, the snapshot itself being
a fresh directory whose own status is NeedUpdate), followed by the appended
entry with its status forced to NeedUpdate, tagged NeedUpdate. -/
theorem Entry.append_rec_acc (rpv : List String) :
    ∀ (parent entry : Entry) (acc : List (Entry × EntryStatus)) (parent' : Entry),
    Entry.append_rec parent rpv entry .Create = (.ok acc, parent') →
    acc = (missingSegs parent rpv).map (fun s => (Entry.new s .Directory, EntryStatus.UpToDate))
          ++ [(entry.withStatus .NeedUpdate, EntryStatus.NeedUpdate)] := by
  induction rpv with
  | nil =>
    intro parent entry acc parent' h
    rw [Entry.append_rec_nil] at h
    simp at h
  | cons nm rest ih =>
    intro parent entry acc parent' h
    cases rest with
    | nil =>
      rw [Entry.append_rec_one] at h
      split at h
      · simp at h
      · split at h
        · simp at h
        · injection h with h1 h2
          simp only [if_pos rfl] at h1
          injection h1 with h1
          rw [missingSegs_single, ← h1]
          rfl
    | cons seg rest2 =>
      rw [Entry.append_rec_two] at h
      split at h
      · simp at h
      · split at h
        · simp at h
        · split at h
          · rename_i hemp
            injection h with h1 h2
            simp only [if_pos rfl] at h1
            injection h1 with h1
            rw [missingSegs_two, if_pos hemp, ← h1]
            rfl
          · rename_i hemp
            split at h
            · rename_i c hc
              split at h
              · simp at h
              · injection h with h1 h2
                rw [missingSegs_two, if_neg hemp, hc]
                exact ih c entry acc _ (by rw [Prod.mk.injEq]; exact ⟨h1, rfl⟩)
            · rename_i hc
              injection h with h1 h2
              rw [missingSegs_two, if_neg hemp, hc]
              match hr : (Entry.append_rec ((Entry.new seg .Directory).withHasParent true)
                  (seg :: rest2) entry .Create).1 with
              | .ok acc2 =>
                rw [hr, consAcc] at h1
                injection h1 with h1
                have hrec := ih _ entry acc2
                  ((Entry.append_rec ((Entry.new seg .Directory).withHasParent true)
                    (seg :: rest2) entry .Create).2)
                  (by rw [Prod.mk.injEq]; exact ⟨hr, rfl⟩)
                rw [← h1, hrec]
                simp
              | .error err =>
                rw [hr, consAcc] at h1
                exact absurd h1 (by simp)

/-- In every mode a successful append_rec returns one placeholder snapshot per
missing intermediate directory (tagged UpToDate, the snapshot itself being a
fresh directory whose own status is NeedUpdate), followed, in Create mode
only, by the appended entry with its status forced to NeedUpdate, tagged
NeedUpdate. -/
theorem Entry.append_rec_acc_mode (rpv : List String) :
    ∀ (parent entry : Entry) (mode : AppendMode) (acc : List (Entry × EntryStatus))
      (parent' : Entry),
    Entry.append_rec parent rpv entry mode = (.ok acc, parent') →
    acc = (missingSegs parent rpv).map (fun s => (Entry.new s .Directory, EntryStatus.UpToDate))
          ++ (if mode = .Create
              then [(entry.withStatus .NeedUpdate, EntryStatus.NeedUpdate)] else []) := by
  induction rpv with
  | nil =>
    intro parent entry mode acc parent' h
    rw [Entry.append_rec_nil] at h
    simp at h
  | cons nm rest ih =>
    intro parent entry mode acc parent' h
    cases rest with
    | nil =>
      rw [Entry.append_rec_one] at h
      split at h
      · simp at h
      · split at h
        · simp at h
        · injection h with h1 h2
          injection h1 with h1
          rw [missingSegs_single, ← h1]
          rfl
    | cons seg rest2 =>
      rw [Entry.append_rec_two] at h
      split at h
      · simp at h
      · split at h
        · simp at h
        · split at h
          · rename_i hemp
            injection h with h1 h2
            injection h1 with h1
            rw [missingSegs_two, if_pos hemp, ← h1]
            rfl
          · rename_i hemp
            split at h
            · rename_i c hc
              split at h
              · simp at h
              · injection h with h1 h2
                rw [missingSegs_two, if_neg hemp, hc]
                exact ih c entry mode acc _ (by rw [Prod.mk.injEq]; exact ⟨h1, rfl⟩)
            · rename_i hc
              injection h with h1 h2
              rw [missingSegs_two, if_neg hemp, hc]
              match hr : (Entry.append_rec ((Entry.new seg .Directory).withHasParent true)
                  (seg :: rest2) entry mode).1 with
              | .ok acc2 =>
                rw [hr, consAcc] at h1
                injection h1 with h1
                have hrec := ih _ entry mode acc2
                  ((Entry.append_rec ((Entry.new seg .Directory).withHasParent true)
                    (seg :: rest2) entry mode).2)
                  (by rw [Prod.mk.injEq]; exact ⟨hr, rfl⟩)
                rw [← h1, hrec]
                simp
              | .error err =>
                rw [hr, consAcc] at h1
                exact absurd h1 (by simp)

/-! ### Legal trees -/

/-- The tree invariants maintained by the source (§3 of its documentation):
raw names are slash-free, files have no children, every child is keyed by its
get_name and carries a parent back-reference. -/
inductive Legal : Entry → Prop where
  | intro : ∀ e : Entry,
      endsSlash e.name = false →
      (e.type_.is_file = true → e.children = []) →
      (∀ kc ∈ e.children, kc.1 = kc.2.get_name) →
      (∀ kc ∈ e.children, kc.2.hasParent = true) →
      (∀ kc ∈ e.children, Legal kc.2) →
      Legal e

theorem Legal.name_noSlash {e : Entry} (h : Legal e) : endsSlash e.name = false := by
  cases h
  assumption

theorem Legal.child {e : Entry} (h : Legal e) {k : String} {c : Entry}
    (hc : lookupA e.children k = some c) :
    k = c.get_name ∧ c.hasParent = true ∧ Legal c := by
  cases h with
  | intro e hn hf hkey hpar hch =>
    have hm := lookupA_mem _ _ _ hc
    exact ⟨hkey _ hm, hpar _ hm, hch _ hm⟩

theorem Entry.get_name_file {e : Entry} (h : e.type_.is_file = true) :
    e.get_name = e.name := by
  unfold Entry.get_name
  match ht : e.type_ with
  | .File tag => simp
  | .Directory => rw [ht] at h; simp [EntryType.is_file] at h

theorem Entry.get_name_dir {e : Entry} (h : e.type_.is_file = false) :
    e.get_name = e.name ++ "/" := by
  unfold Entry.get_name
  match ht : e.type_ with
  | .File tag => rw [ht] at h; simp [EntryType.is_file] at h
  | .Directory => simp

/-- In a legal tree, a child found under a slash-terminated key is a
directory: file children are keyed by their slash-free raw name. -/
theorem Legal.lookup_slash_dir {e : Entry} (hL : Legal e) {k : String} {c : Entry}
    (hk : endsSlash k = true) (hc : lookupA e.children k = some c) :
    c.type_.is_file = false := by
  obtain ⟨hkey, _, hLc⟩ := hL.child hc
  by_contra hf
  rw [Bool.not_eq_false] at hf
  rw [hkey, Entry.get_name_file hf] at hk
  rw [hLc.name_noSlash] at hk
  simp at hk

/-! ### get_rec lemmas -/

theorem Entry.get_rec_ok (rpv : List String) :
    ∀ e : Entry, e.type_.is_file = false → 2 ≤ rpv.length →
    ∃ r, Entry.get_rec e rpv = .ok r := by
  induction rpv with
  | nil => intro e he hl; simp at hl
  | cons nm rest ih =>
    intro e he hl
    cases rest with
    | nil => simp at hl
    | cons seg rest2 =>
      rw [Entry.get_rec_two]
      split
      · exact ⟨none, rfl⟩
      · rw [if_neg (by rw [he]; simp)]
        split
        · exact ⟨none, rfl⟩
        · split
          · exact ⟨_, rfl⟩
          · split
            · exact ⟨_, rfl⟩
            · rename_i c hc hcf hemp
              apply ih
              · simp at hcf
                exact hcf
              · cases rest2 with
                | nil => simp [List.isEmpty] at hemp
                | cons a b => simp

/-- Entry::get never returns Err when the receiver is a directory. -/
theorem Entry.get_ok (root : Entry) (path : String) (hd : root.type_.is_file = false) :
    ∃ r, Entry.get root path = .ok r := by
  unfold Entry.get
  split
  · exact ⟨none, rfl⟩
  · split
    · exact ⟨none, rfl⟩
    · split
      · split
        · exact ⟨some root, rfl⟩
        · exact ⟨none, rfl⟩
      · rename_i h0 h1
        apply Entry.get_rec_ok _ _ hd
        rw [List.length_reverse]
        omega

/-- In a legal tree a File entry is only ever produced by get_rec from the
final segment of the path vector, and that segment is its get_name. -/
theorem Entry.get_rec_file_leaf (rpv : List String) :
    ∀ (e f : Entry), Legal e → (∀ x ∈ rpv.dropLast, endsSlash x = true) →
    Entry.get_rec e rpv = .ok (some f) → f.type_.is_file = true →
    rpv.getLast? = some f.get_name := by
  induction rpv with
  | nil =>
    intro e f _ _ h _
    rw [Entry.get_rec_nil] at h
    simp at h
  | cons nm rest ih =>
    intro e f hL hsl h hf
    cases rest with
    | nil =>
      rw [Entry.get_rec_one] at h
      split at h
      · simp at h
      · split at h
        · simp at h
        · simp at h
    | cons seg rest2 =>
      rw [Entry.get_rec_two] at h
      split at h
      · simp at h
      · split at h
        · simp at h
        · split at h
          · simp at h
          · split at h
            · rename_i c hc hcf
              injection h with h
              injection h with h
              subst h
              cases hrest2 : rest2 with
              | nil =>
                obtain ⟨hkey, _, _⟩ := hL.child hc
                simp [hrest2, ← hkey]
              | cons a b =>
                have hseg : endsSlash seg = true := by
                  apply hsl
                  rw [hrest2]
                  simp
                rw [hL.lookup_slash_dir hseg hc] at hcf
                simp at hcf
            · split at h
              · rename_i c hc hcf hemp
                injection h with h
                injection h with h
                subst h
                rw [hf] at hcf
                simp at hcf
              · rename_i c hc hcf hemp
                obtain ⟨hkey, _, hLc⟩ := hL.child hc
                have hsub : ∀ x ∈ (seg :: rest2).dropLast, endsSlash x = true := by
                  intro x hx
                  apply hsl
                  cases rest2 with
                  | nil => simp at hx
                  | cons a b =>
                    rw [List.dropLast_cons₂] at hx
                    rw [List.dropLast_cons₂, List.dropLast_cons₂]
                    exact List.mem_cons_of_mem _ hx
                have hrec := ih c f hLc hsub h hf
                rw [List.getLast?_cons_cons]
                exact hrec

theorem Entry.withChildren_withChildren (e : Entry) (a b : List (String × Entry)) :
    (e.withChildren a).withChildren b = e.withChildren b := by
  cases e; rfl

theorem Entry.withHasParent_withHasParent (e : Entry) (a b : Bool) :
    (e.withHasParent a).withHasParent b = e.withHasParent b := by
  cases e; rfl

@[simp] theorem Entry.get_name_append_child (parent x : Entry) :
    (parent.append_child x).get_name = parent.get_name := by
  rw [Entry.append_child]
  simp

@[simp] theorem Entry.type_append_child (parent x : Entry) :
    (parent.append_child x).type_ = parent.type_ := by
  rw [Entry.append_child]
  simp

@[simp] theorem Entry.children_append_child (parent x : Entry) :
    (parent.append_child x).children =
    insertA parent.children (x.withHasParent true).get_name (x.withHasParent true) := by
  rw [Entry.append_child]
  simp

/-- After a successful Create-mode append_rec that materialised no
intermediate placeholder, pop_rec along the same path vector removes exactly
the appended entry (status NeedUpdate, parent reference cleared) and restores
the receiver to its original value. -/
theorem Entry.pop_rec_append_rec (rpv : List String) :
    ∀ (parent entry : Entry) (a : Entry × EntryStatus) (parent' : Entry),
    Entry.append_rec parent rpv entry .Create = (.ok [a], parent') →
    Entry.get_rec parent rpv = .ok none →
    rpv.getLast? = some entry.get_name →
    Entry.pop_rec parent' rpv =
      (.ok (some ((entry.withStatus .NeedUpdate).withHasParent false)), parent) := by
  induction rpv with
  | nil =>
    intro parent entry a parent' happ hget hlast
    rw [Entry.append_rec_nil] at happ
    simp at happ
  | cons nm rest ih =>
    intro parent entry a parent' happ hget hlast
    cases rest with
    | nil =>
      rw [Entry.append_rec_one] at happ
      split at happ
      · simp at happ
      · split at happ
        · simp at happ
        · rename_i hnm hpf
          rw [Entry.get_rec_one, if_neg hnm, if_neg hpf] at hget
          simp at hget
    | cons seg rest2 =>
      rw [Entry.append_rec_two] at happ
      split at happ
      · simp at happ
      · split at happ
        · simp at happ
        · rename_i hnm hpf
          rw [Entry.get_rec_two, if_neg hnm, if_neg hpf] at hget
          split at happ
          · -- leaf: rest2 = []
            rename_i hemp
            injection happ with h1 h2
            have hseg : seg = entry.get_name := by
              cases rest2 with
              | nil => simpa using hlast
              | cons x y => simp [List.isEmpty] at hemp
            have hlook : lookupA parent.children seg = none := by
              split at hget
              · assumption
              · rename_i c hc
                split at hget
                · simp at hget
                · simp [hemp] at hget
            rw [← h2]
            rw [Entry.pop_rec_two]
            rw [if_neg (by simpa using hnm), if_neg (by simpa using hpf), if_pos hemp]
            have hkey : ((entry.withStatus .NeedUpdate).withHasParent true).get_name
                = entry.get_name := by simp
            rw [Entry.children_append_child, hkey, ← hseg,
              insertA_of_lookup_none _ _ _ hlook,
              removeA_append_fresh _ _ _ hlook]
            dsimp only
            rw [Entry.withHasParent_withHasParent]
            have : (parent.append_child (entry.withStatus .NeedUpdate)).withChildren
                parent.children = parent := by
              rw [Entry.append_child, Entry.withChildren_withChildren,
                Entry.withChildren_children]
            rw [this]
          · -- continue: rest2 ≠ []
            rename_i hemp
            split at happ
            · rename_i c hc
              split at happ
              · simp at happ
              · rename_i hcf
                injection happ with h1 h2
                rw [hc] at hget
                dsimp only at hget
                rw [if_neg hcf, if_neg hemp] at hget
                have hrec := ih c entry a
                  ((Entry.append_rec c (seg :: rest2) entry .Create).2)
                  (by rw [Prod.mk.injEq]; exact ⟨h1, rfl⟩)
                  hget
                  (by rw [List.getLast?_cons_cons] at hlast; exact hlast)
                rw [← h2]
                rw [Entry.pop_rec_two]
                rw [if_neg (by simpa using hnm), if_neg (by simpa using hpf), if_neg hemp]
                rw [Entry.children_withChildren, lookupA_insertA_self]
                dsimp only
                have hty : (Entry.append_rec c (seg :: rest2) entry .Create).2.type_
                    = c.type_ := Entry.append_rec_type ..
                rw [if_neg (by rw [hty]; simpa using hcf)]
                rw [hrec]
                dsimp only
                rw [insertA_insertA, insertA_lookup_eq _ _ _ hc,
                  Entry.withChildren_withChildren, Entry.withChildren_children]
            · -- placeholder branch impossible: the accumulator would hold two entries
              rename_i hc
              injection happ with h1 h2
              match hr : (Entry.append_rec ((Entry.new seg .Directory).withHasParent true)
                  (seg :: rest2) entry .Create).1 with
              | .ok acc2 =>
                rw [hr, consAcc] at h1
                injection h1 with h1
                have := Entry.append_rec_acc (seg :: rest2) _ entry acc2
                  ((Entry.append_rec ((Entry.new seg .Directory).withHasParent true)
                    (seg :: rest2) entry .Create).2)
                  (by rw [Prod.mk.injEq]; exact ⟨hr, rfl⟩)
                rw [this] at h1
                simp at h1
              | .error err =>
                rw [hr, consAcc] at h1
                simp at h1

theorem Entry.is_root_parts {e : Entry} (h : e.is_root = true) :
    e.name = "" ∧ e.hasParent = false := by
  rw [Entry.is_root] at h
  simp at h
  exact h

/-- Inversion of a successful Create-mode, no-overwrite Entry::append: both
existence probes returned none, the path vector is non-empty, its head equals
the entry's get_name, and the work was done by append_rec. -/
theorem Entry.append_create_parts {root : Entry} {p : String} {E : Entry}
    {acc : List (Entry × EntryStatus)} {T' : Entry}
    (hroot : root.is_root = true)
    (h : Entry.append root p E .Create false = (.ok acc, T')) :
    Entry.get root (add_last_slash p) = .ok none ∧
    Entry.get root p = .ok none ∧
    ∃ pv0 pvrest, Entry.prepare_path_vec p = pv0 :: pvrest ∧ pv0 = E.get_name ∧
      Entry.append_rec root ((pv0 :: pvrest).reverse) E .Create = (.ok acc, T') := by
  unfold Entry.append at h
  rw [if_neg (by rw [hroot]; simp)] at h
  unfold Entry.append_existing at h
  match hg1 : Entry.get root (add_last_slash p) with
  | .error er => rw [hg1] at h; simp at h
  | .ok r1 =>
    rw [hg1] at h
    dsimp only at h
    match r1 with
    | some x => simp at h
    | none =>
      simp only [Option.isSome_none, Bool.false_eq_true, if_false] at h
      match hg2 : Entry.get root p with
      | .error er => rw [hg2] at h; simp at h
      | .ok r2 =>
        rw [hg2] at h
        dsimp only at h
        match r2 with
        | some x => simp at h
        | none =>
          simp only [Option.isSome_none, Bool.false_and, Bool.and_false,
            Bool.false_eq_true, if_false] at h
          refine ⟨rfl, rfl, ?_⟩
          match hpv : Entry.prepare_path_vec p with
          | [] => rw [hpv] at h; simp at h
          | pv0 :: pvrest =>
            rw [hpv] at h
            dsimp only at h
            by_cases hname : pv0 = E.get_name
            · rw [if_neg (by simp [hname])] at h
              exact ⟨pv0, pvrest, rfl, hname, h⟩
            · rw [if_pos (by simpa using hname)] at h
              simp at h

/-- Top-level form of the pop-after-append round trip: a Create append with
overwrite disabled that materialised nothing beyond the entry itself is
undone exactly by pop at the same path. -/
theorem Entry.pop_append_create {root : Entry} {p : String} {E : Entry}
    {a : Entry × EntryStatus} {T' : Entry}
    (hroot : root.is_root = true)
    (happ : Entry.append root p E .Create false = (.ok [a], T')) :
    Entry.pop T' p = (.ok (some ((E.withStatus .NeedUpdate).withHasParent false)), root) := by
  obtain ⟨hg1, hg2, pv0, pvrest, hpv, hname, hrec⟩ := Entry.append_create_parts hroot happ
  have hT' : (Entry.append_rec root ((pv0 :: pvrest).reverse) E .Create).2 = T' := by
    rw [hrec]
  have hT'root : T'.is_root = true := by
    rw [← hT', Entry.append_rec_is_root]
    exact hroot
  unfold Entry.pop
  rw [if_neg (by rw [hT'root]; simp), hpv]
  apply Entry.pop_rec_append_rec ((pv0 :: pvrest).reverse) root E a T' hrec
  · -- get_rec along the shared path vector returned none
    cases pvrest with
    | nil =>
      exfalso
      rw [List.reverse_singleton] at hrec
      rw [Entry.append_rec_one] at hrec
      split at hrec
      · simp at hrec
      · split at hrec
        · simp at hrec
        · rename_i hnm hpf
          have hgn : root.get_name = pv0 := by simpa using hnm
          have hne : pv0 ≠ "" := (ppv_rest_facts hpv).1
          have hslash : pv0 = "/" := by
            rw [← hgn]
            rw [← hgn] at hne
            unfold Entry.get_name at hne ⊢
            rw [(Entry.is_root_parts hroot).1] at hne ⊢
            match ht : root.type_ with
            | .File tag => rw [ht] at hne; simp at hne
            | .Directory => simp
          unfold Entry.get at hg2
          rw [if_neg (by rw [hroot]; simp), hpv] at hg2
          simp [hslash] at hg2
    | cons q qs =>
      unfold Entry.get at hg2
      rw [if_neg (by rw [hroot]; simp), hpv] at hg2
      rw [if_neg (by simp), if_neg (by simp)] at hg2
      exact hg2
  · rw [List.getLast?_reverse]
    simp [hname]

theorem Entry.append_rec_hasParent (parent : Entry) (rpv : List String) (entry : Entry)
    (mode : AppendMode) :
    (Entry.append_rec parent rpv entry mode).2.hasParent = parent.hasParent := by
  obtain ⟨cs, h⟩ := Entry.append_rec_snd parent rpv entry mode
  rw [h]
  simp

theorem Entry.withHasParent_self {e : Entry} (h : e.hasParent = true) :
    e.withHasParent true = e := by
  cases e with
  | mk n p s t c =>
    simp at h
    rw [h]
    rfl

theorem drop_last_slash_append_slash {s : String} (h : endsSlash s = true) :
    drop_last_slash s ++ "/" = s := by
  cases s with
  | mk data =>
    unfold drop_last_slash
    rw [if_pos h]
    unfold endsSlash at h
    have hne : data ≠ [] := by
      intro hd
      subst hd
      simp at h
    have hc : data.getLast hne = '/' := by
      rw [show (String.mk data).data = data from rfl, List.getLast?_eq_getLast _ hne] at h
      simpa using h
    have hdata : data.dropLast ++ ['/'] = data := by
      conv_rhs => rw [← List.dropLast_append_getLast hne]
      rw [hc]
    show String.mk ((String.mk data).data.dropLast ++ ['/']) = String.mk data
    rw [show (String.mk data).data = data from rfl, hdata]

theorem Entry.new_dir_get_name (seg : String) :
    (Entry.new seg .Directory).get_name = drop_last_slash seg ++ "/" := by
  rw [Entry.new, Entry.get_name]
  simp

/-- After a successful append_rec, get_rec along the same path vector finds
exactly the appended entry: status NeedUpdate, parent reference set. -/
theorem Entry.get_rec_append_rec (rpv : List String) :
    ∀ (parent entry : Entry) (mode : AppendMode) (acc : List (Entry × EntryStatus))
      (parent' : Entry),
    Entry.append_rec parent rpv entry mode = (.ok acc, parent') →
    2 ≤ rpv.length →
    rpv.getLast? = some entry.get_name →
    (∀ x ∈ rpv.dropLast, endsSlash x = true) →
    Entry.get_rec parent' rpv = .ok (some ((entry.withStatus .NeedUpdate).withHasParent true)) := by
  induction rpv with
  | nil =>
    intro parent entry mode acc parent' happ hlen hlast hsl
    simp at hlen
  | cons nm rest ih =>
    intro parent entry mode acc parent' happ hlen hlast hsl
    cases rest with
    | nil => simp at hlen
    | cons seg rest2 =>
      rw [Entry.append_rec_two] at happ
      split at happ
      · simp at happ
      · split at happ
        · simp at happ
        · rename_i hnm hpf
          split at happ
          · -- leaf insert
            rename_i hemp
            injection happ with h1 h2
            have hseg : seg = entry.get_name := by
              cases rest2 with
              | nil => simpa using hlast
              | cons x y => simp [List.isEmpty] at hemp
            rw [← h2]
            rw [Entry.get_rec_two]
            rw [if_neg (by simpa using hnm), if_neg (by simpa using hpf)]
            rw [Entry.children_append_child]
            have hkey : ((entry.withStatus .NeedUpdate).withHasParent true).get_name
                = entry.get_name := by simp
            rw [hkey, ← hseg, lookupA_insertA_self]
            dsimp only
            split <;> simp [hemp]
          · -- continue phase
            rename_i hemp
            have hlen2 : 2 ≤ (seg :: rest2).length := by
              cases rest2 with
              | nil => simp [List.isEmpty] at hemp
              | cons a b => simp
            have hlast2 : (seg :: rest2).getLast? = some entry.get_name := by
              rw [List.getLast?_cons_cons] at hlast
              exact hlast
            have hsl2 : ∀ x ∈ (seg :: rest2).dropLast, endsSlash x = true := by
              intro x hx
              apply hsl
              cases rest2 with
              | nil => simp at hx
              | cons a b =>
                rw [List.dropLast_cons₂] at hx
                rw [List.dropLast_cons₂, List.dropLast_cons₂]
                exact List.mem_cons_of_mem _ hx
            have hsegsl : endsSlash seg = true := by
              apply hsl
              cases rest2 with
              | nil => simp [List.isEmpty] at hemp
              | cons a b =>
                rw [List.dropLast_cons₂, List.dropLast_cons₂]
                simp
            split at happ
            · -- existing child
              rename_i c hc
              split at happ
              · simp at happ
              · rename_i hcf
                injection happ with h1 h2
                rw [← h2]
                rw [Entry.get_rec_two]
                rw [if_neg (by simpa using hnm), if_neg (by simpa using hpf)]
                rw [Entry.children_withChildren, lookupA_insertA_self]
                dsimp only
                have hty : (Entry.append_rec c (seg :: rest2) entry mode).2.type_
                    = c.type_ := Entry.append_rec_type ..
                rw [if_neg (by rw [hty]; simpa using hcf), if_neg hemp]
                exact ih c entry mode acc _
                  (by rw [Prod.mk.injEq]; exact ⟨h1, rfl⟩) hlen2 hlast2 hsl2
            · -- materialised placeholder
              rename_i hc
              injection happ with h1 h2
              match hr : (Entry.append_rec ((Entry.new seg .Directory).withHasParent true)
                  (seg :: rest2) entry mode).1 with
              | .error err => rw [hr, consAcc] at h1; simp at h1
              | .ok acc2 =>
                rw [hr, consAcc] at h1
                rw [← h2]
                rw [Entry.get_rec_two]
                rw [if_neg (by simpa using hnm), if_neg (by simpa using hpf)]
                rw [Entry.children_append_child]
                have hhp : (Entry.append_rec ((Entry.new seg .Directory).withHasParent true)
                    (seg :: rest2) entry mode).2.hasParent = true := by
                  rw [Entry.append_rec_hasParent]
                  simp
                rw [Entry.withHasParent_self hhp]
                have hgn : (Entry.append_rec ((Entry.new seg .Directory).withHasParent true)
                    (seg :: rest2) entry mode).2.get_name = seg := by
                  rw [Entry.append_rec_get_name]
                  rw [Entry.get_name_withHasParent, Entry.new_dir_get_name]
                  exact drop_last_slash_append_slash hsegsl
                rw [hgn, lookupA_insertA_self]
                dsimp only
                have hty : (Entry.append_rec ((Entry.new seg .Directory).withHasParent true)
                    (seg :: rest2) entry mode).2.type_ = EntryType.Directory := by
                  rw [Entry.append_rec_type]
                  simp [Entry.new]
                rw [if_neg (by rw [hty]; simp [EntryType.is_file]), if_neg hemp]
                exact ih _ entry mode acc2 _
                  (by rw [Prod.mk.injEq]; exact ⟨hr, rfl⟩) hlen2 hlast2 hsl2

/-! ### splitSlash decomposition lemmas -/

/-- Apply a function to the last element of a list. -/
def modifyLast (f : String → String) : List String → List String
  | [] => []
  | [x] => [f x]
  | x :: y :: rest => x :: modifyLast f (y :: rest)

theorem modifyLast_cons (f : String → String) (x : String) {l : List String} (h : l ≠ []) :
    modifyLast f (x :: l) = x :: modifyLast f l := by
  match l with
  | [] => exact absurd rfl h
  | y :: rest => rfl

theorem modifyLast_append_single (f : String → String) (q : List String) (x : String) :
    modifyLast f (q ++ [x]) = q ++ [f x] := by
  induction q with
  | nil => rfl
  | cons a q' ih =>
    rw [List.cons_append, modifyLast_cons _ _ (by simp), ih, List.cons_append]

theorem splitSlashAux_no_slash (ds : List Char) :
    ∀ acc, (∀ c ∈ ds, c ≠ '/') → splitSlashAux ds acc = [String.mk (acc.reverse ++ ds)] := by
  induction ds with
  | nil => intro acc h; simp [splitSlashAux]
  | cons c rest ih =>
    intro acc h
    rw [splitSlashAux, if_neg (h c (by simp))]
    rw [ih (c :: acc) (fun d hd => h d (by simp [hd]))]
    simp

theorem splitSlashAux_cons_slash (rest : List Char) (acc : List Char) :
    splitSlashAux ('/' :: rest) acc = String.mk acc.reverse :: splitSlashAux rest [] := by
  rw [splitSlashAux, if_pos rfl]

theorem splitSlashAux_cons_other {c : Char} (h : c ≠ '/') (rest : List Char) (acc : List Char) :
    splitSlashAux (c :: rest) acc = splitSlashAux rest (c :: acc) := by
  rw [splitSlashAux, if_neg h]

theorem splitSlashAux_append_slash (cs : List Char) :
    ∀ acc, splitSlashAux (cs ++ ['/']) acc = splitSlashAux cs acc ++ [""] := by
  induction cs with
  | nil =>
    intro acc
    rw [List.nil_append, splitSlashAux_cons_slash]
    rfl
  | cons c rest ih =>
    intro acc
    by_cases h : c = '/'
    · subst h
      rw [List.cons_append, splitSlashAux_cons_slash, splitSlashAux_cons_slash, ih,
        List.cons_append]
    · rw [List.cons_append, splitSlashAux_cons_other h, splitSlashAux_cons_other h, ih]

theorem splitSlashAux_append_no_slash (cs ds : List Char) (hds : ∀ c ∈ ds, c ≠ '/') :
    ∀ acc, splitSlashAux (cs ++ ds) acc =
      modifyLast (fun x => x ++ String.mk ds) (splitSlashAux cs acc) := by
  induction cs with
  | nil =>
    intro acc
    rw [List.nil_append, splitSlashAux_no_slash ds acc hds]
    rfl
  | cons c rest ih =>
    intro acc
    by_cases h : c = '/'
    · subst h
      rw [List.cons_append, splitSlashAux_cons_slash, splitSlashAux_cons_slash,
        modifyLast_cons _ _ (splitSlashAux_ne_nil _ _), ih]
    · rw [List.cons_append, splitSlashAux_cons_other h, splitSlashAux_cons_other h, ih]

theorem splitSlashAux_getLast_empty (cs : List Char) :
    ∀ acc, (splitSlashAux cs acc).getLast? = some "" →
    (cs = [] ∧ acc = []) ∨ cs.getLast? = some '/' := by
  induction cs with
  | nil =>
    intro acc h
    left
    refine ⟨rfl, ?_⟩
    have h' : String.mk acc.reverse = "" := by simpa [splitSlashAux] using h
    have hd := congrArg String.data h'
    simp at hd
    exact hd
  | cons c rest ih =>
    intro acc h
    by_cases hc : c = '/'
    · subst hc
      rw [splitSlashAux_cons_slash] at h
      obtain ⟨z, zs, hz⟩ : ∃ z zs, splitSlashAux rest [] = z :: zs := by
        match hx : splitSlashAux rest [] with
        | [] => exact absurd hx (splitSlashAux_ne_nil _ _)
        | z :: zs => exact ⟨z, zs, rfl⟩
      rw [hz, List.getLast?_cons_cons, ← hz] at h
      rcases ih [] h with ⟨h1, _⟩ | h1
      · subst h1
        right
        rfl
      · right
        rcases rest with _ | ⟨r0, rs⟩
        · simp at h1
        · rw [List.getLast?_cons_cons]
          exact h1
    · rw [splitSlashAux_cons_other hc] at h
      rcases ih (c :: acc) h with ⟨h1, h2⟩ | h1
      · simp at h2
      · right
        rcases rest with _ | ⟨r0, rs⟩
        · simp at h1
        · rw [List.getLast?_cons_cons]
          exact h1

theorem string_eta (s : String) : String.mk s.data = s := by
  cases s; rfl

theorem empty_append_string (n : String) : "" ++ n = n := by
  cases n; rfl

theorem data_decomp_of_endsSlash {p : String} (h : endsSlash p = true) :
    p.data = p.data.dropLast ++ ['/'] := by
  unfold endsSlash at h
  have hne : p.data ≠ [] := by
    intro hd
    rw [hd] at h
    simp at h
  have hc : p.data.getLast hne = '/' := by
    rw [List.getLast?_eq_getLast _ hne] at h
    simpa using h
  conv_lhs => rw [← List.dropLast_append_getLast hne]
  rw [hc]

theorem splitSlash_of_endsSlash {p : String} (h : endsSlash p = true) :
    splitSlash p = splitSlash (String.mk p.data.dropLast) ++ [""] := by
  unfold splitSlash
  conv_lhs => rw [data_decomp_of_endsSlash h]
  exact splitSlashAux_append_slash _ _

theorem splitSlash_pieces_no_slash (s : String) :
    ∀ x ∈ splitSlash s, ∀ c ∈ x.data, c ≠ '/' := by
  have aux : ∀ (cs acc : List Char), (∀ c ∈ acc, c ≠ '/') →
      ∀ x ∈ splitSlashAux cs acc, ∀ c ∈ x.data, c ≠ '/' := by
    intro cs
    induction cs with
    | nil =>
      intro acc hacc x hx c hc
      rw [splitSlashAux] at hx
      simp at hx
      subst hx
      simp at hc
      exact hacc c hc
    | cons d rest ih =>
      intro acc hacc x hx c hc
      by_cases hd : d = '/'
      · subst hd
        rw [splitSlashAux_cons_slash] at hx
        rcases List.mem_cons.mp hx with h1 | h1
        · subst h1
          simp at hc
          exact hacc c hc
        · exact ih [] (by simp) x h1 c hc
      · rw [splitSlashAux_cons_other hd] at hx
        refine ih (d :: acc) ?_ x hx c hc
        intro z hz
        rcases List.mem_cons.mp hz with h1 | h1
        · subst h1; exact hd
        · exact hacc z h1
  exact aux s.data [] (by simp)

theorem markInit_cons₂ (a b : String) (l : List String) :
    markInit (a :: b :: l) = (a ++ "/") :: markInit (b :: l) := rfl

theorem markInit_append_single (q : List String) (x : String) :
    markInit (q ++ [x]) = q.map (fun s => s ++ "/") ++ [x] := by
  induction q with
  | nil => rfl
  | cons a q' ih =>
    rcases q' with _ | ⟨b, q''⟩
    · rfl
    · rw [show ((a :: b :: q'') ++ [x]) = a :: ((b :: q'') ++ [x]) from rfl]
      rw [show ((b :: q'') ++ [x]) = b :: (q'' ++ [x]) from rfl] at ih ⊢
      rcases hq : q'' ++ [x] with _ | ⟨z, zs⟩
      · simp at hq
      · rw [markInit_cons₂, ← hq, ih]
        rfl

theorem ppv_of_endsSlash {p : String} (h : endsSlash p = true) :
    Entry.prepare_path_vec p =
      ((splitSlash (String.mk p.data.dropLast)).map (fun s => s ++ "/")).reverse := by
  unfold Entry.prepare_path_vec
  rw [splitSlash_of_endsSlash h, markInit_append_single, List.reverse_append]
  simp

theorem ppv_all_slash_of_endsSlash {p : String} (h : endsSlash p = true) :
    ∀ x ∈ Entry.prepare_path_vec p, endsSlash x = true := by
  intro x hx
  rw [ppv_of_endsSlash h] at hx
  rw [List.mem_reverse] at hx
  obtain ⟨s, _, hs⟩ := List.mem_map.mp hx
  rw [← hs]
  exact endsSlash_append_slash s

theorem ppv_append_name {p n : String} (hp : endsSlash p = true)
    (hn : ∀ c ∈ n.data, c ≠ '/') (hne : n ≠ "") :
    Entry.prepare_path_vec (p ++ n) = n :: Entry.prepare_path_vec p := by
  have hsplit : splitSlash (p ++ n) =
      splitSlash (String.mk p.data.dropLast) ++ [n] := by
    unfold splitSlash
    rw [String.data_append]
    rw [splitSlashAux_append_no_slash _ _ hn]
    rw [show splitSlashAux p.data ([] : List Char) = splitSlash p from rfl]
    rw [splitSlash_of_endsSlash hp, modifyLast_append_single]
    rfl
  conv_lhs => rw [Entry.prepare_path_vec]
  rw [hsplit, markInit_append_single, List.reverse_append]
  rw [ppv_of_endsSlash hp]
  simp only [List.reverse_cons, List.reverse_nil, List.nil_append, List.singleton_append]
  rw [if_neg hne]

theorem ppv_add_last_slash {p : String} (hp : endsSlash p = false) (hne : p ≠ "")
    {pv0 : String} {pvrest : List String}
    (h : Entry.prepare_path_vec p = pv0 :: pvrest) :
    Entry.prepare_path_vec (add_last_slash p) = (pv0 ++ "/") :: pvrest := by
  have hpe : splitSlash p ≠ [] := splitSlash_ne_nil p
  have hlast_ne : (splitSlash p).getLast hpe ≠ "" := by
    intro hcon
    have hsome : (splitSlash p).getLast? = some "" := by
      rw [List.getLast?_eq_getLast _ hpe, hcon]
    rcases splitSlashAux_getLast_empty p.data [] hsome with ⟨h1, _⟩ | h1
    · apply hne
      cases p with
      | mk d =>
        simp only [String.data] at h1
        subst h1
        rfl
    · unfold endsSlash at hp
      rw [h1] at hp
      simp at hp
  have hdecomp : splitSlash p = (splitSlash p).dropLast ++ [(splitSlash p).getLast hpe] :=
    (List.dropLast_append_getLast hpe).symm
  have hppv : Entry.prepare_path_vec p =
      (splitSlash p).getLast hpe ::
        ((splitSlash p).dropLast.map (fun s => s ++ "/")).reverse := by
    unfold Entry.prepare_path_vec
    conv_lhs => rw [hdecomp]
    rw [markInit_append_single, List.reverse_append]
    simp only [List.reverse_cons, List.reverse_nil, List.nil_append, List.singleton_append]
    rw [if_neg hlast_ne]
  have hpv0 : pv0 = (splitSlash p).getLast hpe := by
    rw [hppv] at h
    injection h with h1 h2
    exact h1.symm
  have hpvrest : pvrest = ((splitSlash p).dropLast.map (fun s => s ++ "/")).reverse := by
    rw [hppv] at h
    injection h with h1 h2
    exact h2.symm
  rw [add_last_slash, if_neg (by rw [hp]; simp)]
  have hsplit2 : splitSlash (p ++ "/") = splitSlash p ++ [""] := by
    unfold splitSlash
    rw [String.data_append]
    exact splitSlashAux_append_slash _ _
  unfold Entry.prepare_path_vec
  rw [hsplit2, markInit_append_single, List.reverse_append]
  simp only [List.reverse_cons, List.reverse_nil, List.nil_append, List.singleton_append]
  conv_lhs => rw [hdecomp]
  rw [List.map_append, List.reverse_append]
  simp only [List.map_cons, List.map_nil, List.reverse_cons, List.reverse_nil,
    List.nil_append, List.singleton_append]
  rw [hpv0, hpvrest]
  rfl

/-! ### Successful descent conditions for append_rec -/

/-- The conditions append_rec needs along the non-leaf part of a path vector:
names match, every node passed through is a directory, and each next segment
resolves in the children map. -/
def DescendsMid : Entry → List String → Prop
  | _, [] => True
  | parent, [nm] => parent.get_name = nm ∧ parent.type_.is_file = false
  | parent, nm :: seg :: rest =>
    parent.get_name = nm ∧ parent.type_.is_file = false ∧
    ∃ c, lookupA parent.children seg = some c ∧ DescendsMid c (seg :: rest)

theorem DescendsMid_one (parent : Entry) (nm : String) :
    DescendsMid parent [nm] = (parent.get_name = nm ∧ parent.type_.is_file = false) := rfl

theorem DescendsMid_two (parent : Entry) (nm seg : String) (rest : List String) :
    DescendsMid parent (nm :: seg :: rest) =
    (parent.get_name = nm ∧ parent.type_.is_file = false ∧
      ∃ c, lookupA parent.children seg = some c ∧ DescendsMid c (seg :: rest)) := rfl

theorem DescendsMid.head {parent : Entry} {x : String} {xs : List String}
    (h : DescendsMid parent (x :: xs)) :
    parent.get_name = x ∧ parent.type_.is_file = false := by
  cases xs with
  | nil => exact h
  | cons y ys => exact ⟨h.1, h.2.1⟩

theorem Entry.append_rec_ok_of_mid (mid : List String) :
    ∀ (parent : Entry), mid ≠ [] → DescendsMid parent mid →
    ∀ (leaf : String) (entry : Entry) (mode : AppendMode),
    ∃ acc parent', Entry.append_rec parent (mid ++ [leaf]) entry mode = (.ok acc, parent') := by
  induction mid with
  | nil => intro parent h; exact absurd rfl h
  | cons nm midrest ih =>
    intro parent _ hD leaf entry mode
    cases midrest with
    | nil =>
      rw [List.cons_append, List.nil_append, Entry.append_rec_two]
      rw [if_neg (by simp [hD.1]), if_neg (by simp [hD.2]), if_pos (by simp)]
      exact ⟨_, _, rfl⟩
    | cons seg midrest2 =>
      rw [DescendsMid_two] at hD
      obtain ⟨hnm, hpf, c, hc, hD'⟩ := hD
      obtain ⟨acc, c', hr⟩ := ih c (by simp) hD' leaf entry mode
      rw [show ((nm :: seg :: midrest2) ++ [leaf]) = nm :: ((seg :: midrest2) ++ [leaf])
        from rfl]
      rw [show ((seg :: midrest2) ++ [leaf]) = seg :: (midrest2 ++ [leaf]) from rfl]
      rw [Entry.append_rec_two]
      rw [if_neg (by simp [hnm]), if_neg (by simp [hpf]),
        if_neg (by simp)]
      rw [hc]
      dsimp only
      rw [if_neg (by simp [(DescendsMid.head hD').2])]
      rw [show (seg :: (midrest2 ++ [leaf])) = ((seg :: midrest2) ++ [leaf]) from rfl, hr]
      exact ⟨_, _, rfl⟩

theorem Entry.mid_of_get_rec (rpv : List String) :
    ∀ (parent tgt : Entry), Legal parent →
    (∀ x ∈ rpv.dropLast, endsSlash x = true) →
    Entry.get_rec parent rpv = .ok (some tgt) →
    DescendsMid parent rpv.dropLast := by
  induction rpv with
  | nil => intro parent tgt _ _ h; rw [Entry.get_rec_nil] at h; simp at h
  | cons nm rest ih =>
    intro parent tgt hL hsl h
    cases rest with
    | nil =>
      rw [Entry.get_rec_one] at h
      split at h
      · simp at h
      · split at h
        · simp at h
        · simp at h
    | cons seg rest2 =>
      rw [Entry.get_rec_two] at h
      split at h
      · simp at h
      · split at h
        · simp at h
        · rename_i hnm hpf
          split at h
          · simp at h
          · split at h
            · rename_i c hc hcf
              cases rest2 with
              | nil =>
                rw [List.dropLast_cons₂]
                exact ⟨by simpa using hnm, by simpa using hpf⟩
              | cons a b =>
                have hseg : endsSlash seg = true := by
                  apply hsl
                  rw [List.dropLast_cons₂, List.dropLast_cons₂]
                  simp
                rw [hL.lookup_slash_dir hseg hc] at hcf
                simp at hcf
            · split at h
              · rename_i c hc hcf hemp
                have hrest2 : rest2 = [] := by
                  cases rest2 with
                  | nil => rfl
                  | cons a b => simp [List.isEmpty] at hemp
                subst hrest2
                rw [List.dropLast_cons₂]
                exact ⟨by simpa using hnm, by simpa using hpf⟩
              · rename_i c hc hcf hemp
                have hrest2 : rest2 ≠ [] := by
                  intro hcon
                  subst hcon
                  simp [List.isEmpty] at hemp
                obtain ⟨r0, rs, hr⟩ : ∃ r0 rs, rest2 = r0 :: rs := by
                  cases rest2 with
                  | nil => exact absurd rfl hrest2
                  | cons r0 rs => exact ⟨r0, rs, rfl⟩
                subst hr
                have hsub : ∀ x ∈ (seg :: r0 :: rs).dropLast, endsSlash x = true := by
                  intro x hx
                  apply hsl
                  rw [List.dropLast_cons₂]
                  exact List.mem_cons_of_mem _ hx
                obtain ⟨hkey, _, hLc⟩ := hL.child hc
                have hD := ih c tgt hLc hsub h
                rw [List.dropLast_cons₂] at hD
                rw [List.dropLast_cons₂, List.dropLast_cons₂, DescendsMid_two]
                exact ⟨by simpa using hnm, by simpa using hpf, c, hc, hD⟩

theorem Entry.mid_of_get_rec_full (rpv : List String) :
    ∀ (parent tgt : Entry), Legal parent →
    (∀ x ∈ rpv.tail, endsSlash x = true) →
    Entry.get_rec parent rpv = .ok (some tgt) →
    DescendsMid parent rpv := by
  induction rpv with
  | nil => intro parent tgt _ _ h; rw [Entry.get_rec_nil] at h; simp at h
  | cons nm rest ih =>
    intro parent tgt hL hsl h
    cases rest with
    | nil =>
      rw [Entry.get_rec_one] at h
      split at h
      · simp at h
      · split at h
        · simp at h
        · simp at h
    | cons seg rest2 =>
      rw [Entry.get_rec_two] at h
      split at h
      · simp at h
      · split at h
        · simp at h
        · rename_i hnm hpf
          split at h
          · simp at h
          · rename_i c hc
            have hseg : endsSlash seg = true := hsl seg (by simp)
            have hcdir := hL.lookup_slash_dir hseg hc
            obtain ⟨hkey, _, hLc⟩ := hL.child hc
            split at h
            · rename_i hcf
              rw [hcdir] at hcf
              simp at hcf
            · split at h
              · rename_i hcf hemp
                have hrest2 : rest2 = [] := by
                  cases rest2 with
                  | nil => rfl
                  | cons a b => simp [List.isEmpty] at hemp
                subst hrest2
                rw [DescendsMid_two]
                exact ⟨by simpa using hnm, by simpa using hpf, c, hc,
                  hkey.symm, hcdir⟩
              · rename_i hcf hemp
                have hsub : ∀ x ∈ (seg :: rest2).tail, endsSlash x = true := by
                  intro x hx
                  exact hsl x (List.mem_cons_of_mem _ hx)
                have hD := ih c tgt hLc hsub h
                rw [DescendsMid_two]
                exact ⟨by simpa using hnm, by simpa using hpf, c, hc, hD⟩

/-! ### Small support lemmas for the Move-mode analysis -/

theorem add_last_slash_of_endsSlash {p : String} (h : endsSlash p = true) :
    add_last_slash p = p := by
  rw [add_last_slash, if_pos h]

theorem add_last_slash_of_not {p : String} (h : endsSlash p = false) :
    add_last_slash p = p ++ "/" := by
  rw [add_last_slash, if_neg (by rw [h]; simp)]

theorem endsSlash_false_of_no_slash {s : String} (h : ∀ c ∈ s.data, c ≠ '/') :
    endsSlash s = false := by
  unfold endsSlash
  match hl : s.data.getLast? with
  | none => rfl
  | some c =>
    have hm : c ∈ s.data := List.mem_of_mem_getLast? hl
    simpa using h c hm

theorem drop_last_slash_of_not {s : String} (h : endsSlash s = false) :
    drop_last_slash s = s := by
  rw [drop_last_slash, if_neg (by rw [h]; simp)]

@[simp] theorem Entry.name_set_name (e : Entry) (n : String) :
    (e.set_name n).name = drop_last_slash n := by
  cases e; rfl

@[simp] theorem Entry.type_set_name (e : Entry) (n : String) :
    (e.set_name n).type_ = e.type_ := by
  cases e; rfl

@[simp] theorem Entry.hasParent_set_name (e : Entry) (n : String) :
    (e.set_name n).hasParent = e.hasParent := by
  cases e; rfl

@[simp] theorem Entry.status_set_name (e : Entry) (n : String) :
    (e.set_name n).status = e.status := by
  cases e; rfl

@[simp] theorem Entry.children_set_name (e : Entry) (n : String) :
    (e.set_name n).children = e.children := by
  cases e; rfl

theorem Entry.root_get_name_dir {e : Entry} (hroot : e.is_root = true)
    (hdir : e.type_.is_file = false) : e.get_name = "/" := by
  rw [Entry.get_name_dir hdir, (Entry.is_root_parts hroot).1]
  rfl

theorem ppv_decomp_not_slash {p : String} (hp : endsSlash p = false) (hne : p ≠ "") :
    ∃ hpe : splitSlash p ≠ [],
      Entry.prepare_path_vec p =
        (splitSlash p).getLast hpe ::
          ((splitSlash p).dropLast.map (fun s => s ++ "/")).reverse := by
  have hpe : splitSlash p ≠ [] := splitSlash_ne_nil p
  have hlast_ne : (splitSlash p).getLast hpe ≠ "" := by
    intro hcon
    have hsome : (splitSlash p).getLast? = some "" := by
      rw [List.getLast?_eq_getLast _ hpe, hcon]
    rcases splitSlashAux_getLast_empty p.data [] hsome with ⟨h1, _⟩ | h1
    · apply hne
      cases p with
      | mk d =>
        simp only [String.data] at h1
        subst h1
        rfl
    · unfold endsSlash at hp
      rw [h1] at hp
      simp at hp
  refine ⟨hpe, ?_⟩
  unfold Entry.prepare_path_vec
  conv_lhs => rw [(List.dropLast_append_getLast hpe).symm]
  rw [markInit_append_single, List.reverse_append]
  simp only [List.reverse_cons, List.reverse_nil, List.nil_append, List.singleton_append]
  rw [if_neg hlast_ne]

theorem ppv_head_noSlash {p pv0 : String} {pvrest : List String}
    (hp : endsSlash p = false) (hne : p ≠ "")
    (h : Entry.prepare_path_vec p = pv0 :: pvrest) : ∀ c ∈ pv0.data, c ≠ '/' := by
  obtain ⟨hpe, hdec⟩ := ppv_decomp_not_slash hp hne
  rw [hdec] at h
  injection h with h1 h2
  rw [← h1]
  exact splitSlash_pieces_no_slash p _ (List.getLast_mem hpe)

theorem ne_empty_of_data_ne_nil {s : String} (h : s.data ≠ []) : s ≠ "" := by
  intro hcon
  apply h
  rw [hcon]

theorem data_ne_nil_of_ne_empty {s : String} (h : s ≠ "") : s.data ≠ [] := by
  intro hcon
  apply h
  rw [← string_eta s, hcon]

theorem endsSlash_append_right {p n : String} (hne : n ≠ "") :
    endsSlash (p ++ n) = endsSlash n := by
  have hd : n.data ≠ [] := data_ne_nil_of_ne_empty hne
  unfold endsSlash
  rw [String.data_append, List.getLast?_append_of_ne_nil _ hd]

theorem string_append_assoc (a b c : String) : a ++ (b ++ c) = (a ++ b) ++ c := by
  rw [← string_eta (a ++ (b ++ c)), ← string_eta ((a ++ b) ++ c)]
  rw [String.data_append, String.data_append, String.data_append, String.data_append]
  rw [List.append_assoc]

theorem ppv_append_dir_name {p n : String} (hp : endsSlash p = true)
    (hn : ∀ c ∈ n.data, c ≠ '/') (hne : n ≠ "") :
    Entry.prepare_path_vec (p ++ (n ++ "/")) = (n ++ "/") :: Entry.prepare_path_vec p := by
  have h1 := ppv_append_name hp hn hne
  have hns : endsSlash (p ++ n) = false := by
    rw [endsSlash_append_right hne]
    exact endsSlash_false_of_no_slash hn
  have hne2 : p ++ n ≠ "" := by
    apply ne_empty_of_data_ne_nil
    rw [String.data_append]
    intro hcon
    exact data_ne_nil_of_ne_empty hne (List.append_eq_nil.mp hcon).2
  have h2 := ppv_add_last_slash hns hne2 h1
  rw [add_last_slash_of_not hns] at h2
  rw [string_append_assoc]
  exact h2

/-- Entry::append_rec never inspects the final segment of the path vector:
the Rust code only reads path_vec[len - 1] behind the len > 1 guard, and the
leaf insertion is keyed by the appended entry's own name. -/
theorem Entry.append_rec_last_swap (mid : List String) :
    ∀ (parent entry : Entry) (mode : AppendMode) (s s' : String), mid ≠ [] →
    Entry.append_rec parent (mid ++ [s]) entry mode
      = Entry.append_rec parent (mid ++ [s']) entry mode := by
  induction mid with
  | nil =>
    intro _ _ _ _ _ h
    exact absurd rfl h
  | cons nm rest ih =>
    intro parent entry mode s s' _
    cases rest with
    | nil => rfl
    | cons seg mid2 =>
      show Entry.append_rec parent (nm :: seg :: (mid2 ++ [s])) entry mode
          = Entry.append_rec parent (nm :: seg :: (mid2 ++ [s'])) entry mode
      rw [Entry.append_rec_two, Entry.append_rec_two]
      rw [if_neg (by simp : ¬((mid2 ++ [s]).isEmpty = true)),
          if_neg (by simp : ¬((mid2 ++ [s']).isEmpty = true))]
      cases hc : lookupA parent.children seg with
      | some c =>
        dsimp only
        rw [show seg :: (mid2 ++ [s]) = (seg :: mid2) ++ [s] from rfl,
            show seg :: (mid2 ++ [s']) = (seg :: mid2) ++ [s'] from rfl,
            ih c entry mode s s' (by simp)]
      | none =>
        dsimp only
        rw [show seg :: (mid2 ++ [s]) = (seg :: mid2) ++ [s] from rfl,
            show seg :: (mid2 ++ [s']) = (seg :: mid2) ++ [s'] from rfl,
            ih ((Entry.new seg .Directory).withHasParent true) entry mode s s' (by simp)]

theorem Entry.append_move_unfold {root : Entry} {p : String} {E : Entry}
    (hroot : root.is_root = true)
    (hex : Entry.append_existing root p = .ok true)
    {pv0 : String} {pvrest : List String}
    (hpv : Entry.prepare_path_vec p = pv0 :: pvrest)
    (hneq : pv0 ≠ E.get_name) :
    Entry.append root p E .Move true =
      (if (EntryType.guess_from_name p).is_dir = true then
        Entry.append_rec root ((E.get_name :: pv0 :: pvrest).reverse) E .Move
      else
        Entry.append_rec root ((pv0 :: pvrest).reverse) (E.set_name pv0) .Move) := by
  unfold Entry.append
  rw [if_neg (by rw [hroot]; simp), hex]
  dsimp only
  rw [if_neg (by simp), hpv]
  try dsimp only
  rw [if_pos (by simpa using hneq)]
  try dsimp only
  rw [Bool.true_and]

/-- Move-mode append with overwrite through an existing entry at a
slash-terminated path: the moved entry — file or directory — is attached
inside the directory named by the path, keeping its own name (a directory is
afterwards addressed at path ++ name ++ "/", a file at path ++ name: the
entry's get_name). -/
theorem Entry.append_move_inside {root : Entry} {p : String} {E tgt : Entry}
    {pv0 : String} {pvrest : List String}
    (hroot : root.is_root = true) (hdir : root.type_.is_file = false) (hL : Legal root)
    (hEn : ∀ c ∈ E.name.data, c ≠ '/') (hEne : E.name ≠ "")
    (hp : endsSlash p = true)
    (hpv : Entry.prepare_path_vec p = pv0 :: pvrest)
    (hneq : pv0 ≠ E.get_name)
    (htgt : Entry.get root p = .ok (some tgt)) :
    Entry.get (Entry.append root p E .Move true).2 (p ++ E.get_name)
      = .ok (some ((E.withStatus .NeedUpdate).withHasParent true)) := by
  have hq : Entry.prepare_path_vec (p ++ E.get_name)
      = E.get_name :: Entry.prepare_path_vec p := by
    by_cases hb : E.type_.is_file = true
    · rw [Entry.get_name_file hb]
      exact ppv_append_name hp hEn hEne
    · have hb' : E.type_.is_file = false := by
        cases hv : E.type_.is_file
        · rfl
        · exact absurd hv hb
      rw [Entry.get_name_dir hb']
      exact ppv_append_dir_name hp hEn hEne
  have hex : Entry.append_existing root p = .ok true := by
    unfold Entry.append_existing
    rw [add_last_slash_of_endsSlash hp, htgt]
    rfl
  have hunf := Entry.append_move_unfold hroot hex hpv hneq
  rw [hunf, if_pos (by rw [EntryType.guess_from_name, if_pos hp]; rfl)]
  have hDM : DescendsMid root ((pv0 :: pvrest).reverse) := by
    cases pvrest with
    | nil =>
      have hpv0 : pv0 = "/" := by
        unfold Entry.get at htgt
        rw [if_neg (by rw [hroot]; simp), hpv] at htgt
        by_cases hq : pv0 = "/"
        · exact hq
        · rw [if_neg (by simp), if_pos (by simp)] at htgt
          rw [if_neg (by simp [hq])] at htgt
          simp at htgt
      rw [List.reverse_singleton, hpv0]
      exact ⟨Entry.root_get_name_dir hroot hdir, hdir⟩
    | cons q qs =>
      apply Entry.mid_of_get_rec_full _ root tgt hL
      · intro x hx
        rw [List.tail_reverse, List.mem_reverse] at hx
        apply ppv_all_slash_of_endsSlash hp
        rw [hpv]
        exact List.mem_of_mem_dropLast hx
      · unfold Entry.get at htgt
        rw [if_neg (by rw [hroot]; simp), hpv] at htgt
        rw [if_neg (by simp), if_neg (by simp)] at htgt
        exact htgt
  obtain ⟨acc, T', happ⟩ :=
    Entry.append_rec_ok_of_mid ((pv0 :: pvrest).reverse) root (by simp) hDM
      E.get_name E .Move
  rw [show (E.get_name :: pv0 :: pvrest).reverse
      = (pv0 :: pvrest).reverse ++ [E.get_name] from by rw [List.reverse_cons]]
  rw [happ]
  have hget := Entry.get_rec_append_rec ((pv0 :: pvrest).reverse ++ [E.get_name])
    root E .Move acc T' happ
    (by rw [List.length_append, List.length_reverse]; simp)
    (by simp)
    (by
      intro x hx
      rw [List.dropLast_concat, List.mem_reverse] at hx
      apply ppv_all_slash_of_endsSlash hp
      rw [hpv]
      exact hx)
  have hT2 : (Entry.append_rec root ((pv0 :: pvrest).reverse ++ [E.get_name]) E .Move).2
      = T' := by rw [happ]
  have hroot2 : T'.is_root = true := by
    rw [← hT2, Entry.append_rec_is_root]
    exact hroot
  unfold Entry.get
  rw [if_neg (by rw [hroot2]; simp)]
  rw [hq, hpv]
  rw [if_neg (by simp), if_neg (by simp)]
  rw [List.reverse_cons]
  exact hget

/-- Move-mode append with overwrite when the path does not end in a slash:
the moved entry — file or directory — is renamed to the final path segment
and inserted at the path, whatever the type of the entry that existed there
(the renamed directory is afterwards addressed at p ++ "/", keyed with its
trailing slash; a renamed file at p itself). -/
theorem Entry.append_move_rename {root : Entry} {p : String} {E : Entry}
    {pv0 : String} {pvrest : List String}
    (hroot : root.is_root = true) (hdir : root.type_.is_file = false) (hL : Legal root)
    (hp : endsSlash p = false) (hpne : p ≠ "")
    (hpv : Entry.prepare_path_vec p = pv0 :: pvrest)
    (hneq : pv0 ≠ E.get_name)
    (hex : Entry.append_existing root p = .ok true) :
    Entry.get (Entry.append root p E .Move true).2
        (if E.type_.is_file then p else p ++ "/")
      = .ok (some (((E.set_name pv0).withStatus .NeedUpdate).withHasParent true)) := by
  have hnoslash : ∀ c ∈ pv0.data, c ≠ '/' := ppv_head_noSlash hp hpne hpv
  have hpv0ns : endsSlash pv0 = false := endsSlash_false_of_no_slash hnoslash
  have hpv0ne : pv0 ≠ "" := (ppv_rest_facts hpv).1
  have hunf := Entry.append_move_unfold hroot hex hpv hneq
  rw [hunf, if_neg (by
    rw [EntryType.guess_from_name, if_neg (by rw [hp]; simp)]
    decide)]
  have hmid : pvrest ≠ [] ∧ DescendsMid root pvrest.reverse := by
    unfold Entry.append_existing at hex
    obtain ⟨r1, hg1⟩ := Entry.get_ok root (add_last_slash p) hdir
    rw [hg1] at hex
    dsimp only at hex
    cases r1 with
    | some tgt =>
      have hpv' := ppv_add_last_slash hp hpne hpv
      unfold Entry.get at hg1
      rw [if_neg (by rw [hroot]; simp), hpv'] at hg1
      cases pvrest with
      | nil =>
        exfalso
        by_cases hq : pv0 ++ "/" = "/"
        · apply hpv0ne
          have hd := congrArg String.data hq
          rw [String.data_append] at hd
          simp at hd
          rw [← string_eta pv0, hd]
        · rw [if_neg (by simp), if_pos (by simp)] at hg1
          rw [if_neg (by simp [hq])] at hg1
          simp at hg1
      | cons q qs =>
        refine ⟨by simp, ?_⟩
        rw [if_neg (by simp), if_neg (by simp)] at hg1
        have hD := Entry.mid_of_get_rec _ root tgt hL
          (by
            intro x hx
            rw [List.reverse_cons, List.dropLast_concat, List.mem_reverse] at hx
            exact (ppv_rest_facts hpv).2 x hx)
          hg1
        rw [List.reverse_cons, List.dropLast_concat] at hD
        exact hD
    | none =>
      simp only [Option.isSome_none, Bool.false_eq_true, if_false] at hex
      obtain ⟨r2, hg2⟩ := Entry.get_ok root p hdir
      rw [hg2] at hex
      dsimp only at hex
      injection hex with hex
      obtain ⟨tgt, hr2⟩ := Option.isSome_iff_exists.mp hex
      subst hr2
      unfold Entry.get at hg2
      rw [if_neg (by rw [hroot]; simp), hpv] at hg2
      cases pvrest with
      | nil =>
        exfalso
        by_cases hq : pv0 = "/"
        · subst hq
          exact hnoslash '/' (by simp [String.data]) rfl
        · rw [if_neg (by simp), if_pos (by simp)] at hg2
          rw [if_neg (by simp [hq])] at hg2
          simp at hg2
      | cons q qs =>
        refine ⟨by simp, ?_⟩
        rw [if_neg (by simp), if_neg (by simp)] at hg2
        have hD := Entry.mid_of_get_rec _ root tgt hL
          (by
            intro x hx
            rw [List.reverse_cons, List.dropLast_concat, List.mem_reverse] at hx
            exact (ppv_rest_facts hpv).2 x hx)
          hg2
        rw [List.reverse_cons, List.dropLast_concat] at hD
        exact hD
  obtain ⟨hne, hDM⟩ := hmid
  obtain ⟨acc, T', happ⟩ :=
    Entry.append_rec_ok_of_mid pvrest.reverse root (by simpa using hne) hDM
      ((E.set_name pv0).get_name) (E.set_name pv0) .Move
  rw [List.reverse_cons,
    Entry.append_rec_last_swap pvrest.reverse root (E.set_name pv0) .Move
      pv0 ((E.set_name pv0).get_name) (by simpa using hne),
    happ]
  have hgn : (E.set_name pv0).get_name
      = (if E.type_.is_file then pv0 else pv0 ++ "/") := by
    by_cases hb : E.type_.is_file = true
    · rw [if_pos hb, Entry.get_name_file (by rw [Entry.type_set_name]; exact hb),
        Entry.name_set_name, drop_last_slash_of_not hpv0ns]
    · have hb' : E.type_.is_file = false := by
        cases hv : E.type_.is_file
        · rfl
        · exact absurd hv hb
      rw [if_neg hb, Entry.get_name_dir (by rw [Entry.type_set_name]; exact hb'),
        Entry.name_set_name, drop_last_slash_of_not hpv0ns]
  have hget := Entry.get_rec_append_rec (pvrest.reverse ++ [(E.set_name pv0).get_name])
    root (E.set_name pv0) .Move acc T' happ
    (by
      rw [List.length_append, List.length_reverse]
      have : pvrest.length ≠ 0 := by simpa using hne
      simp
      omega)
    (by simp)
    (by
      intro x hx
      rw [List.dropLast_concat, List.mem_reverse] at hx
      exact (ppv_rest_facts hpv).2 x hx)
  have hT2 : (Entry.append_rec root (pvrest.reverse ++ [(E.set_name pv0).get_name])
      (E.set_name pv0) .Move).2 = T' := by rw [happ]
  have hroot2 : T'.is_root = true := by
    rw [← hT2, Entry.append_rec_is_root]
    exact hroot
  have hpvq : Entry.prepare_path_vec (if E.type_.is_file then p else p ++ "/")
      = (E.set_name pv0).get_name :: pvrest := by
    rw [hgn]
    by_cases hb : E.type_.is_file = true
    · rw [if_pos hb, if_pos hb, hpv]
    · rw [if_neg hb, if_neg hb]
      have h2 := ppv_add_last_slash hp hpne hpv
      rw [add_last_slash_of_not hp] at h2
      exact h2
  unfold Entry.get
  rw [if_neg (by rw [hroot2]; simp), hpvq]
  rw [if_neg (by simp), if_neg (by simp [hne])]
  rw [List.reverse_cons]
  exact hget

/-! ## Activity-log event decoding (src/nc_listen.rs lines 618-624, 729-836) -/

inductive NCEvent where
  | Create (p : String)
  | Delete (p : String)
  | Modify (p : String)
  | Move (from_p to_p : String)
deriving DecidableEq, Repr

inductive ActivityType where
  | FileCreated
  | FileRestored
  | FileChanged
  | FileDeleted
deriving DecidableEq, Repr

/-- Rust str::len(): the UTF-8 byte length. -/
def byte_len (s : String) : Nat := s.utf8ByteSize

/-- The sort of line 798: old_files.sort_by(len cmp reverse) — the (unique)
stable sort by descending byte length, modelled by insertion sort with the
comparator "a may precede b when byte_len b ≤ byte_len a". -/
def sort_old_files (old_files : List String) : List String :=
  List.insertionSort (fun a b => byte_len b ≤ byte_len a) old_files

instance : IsTotal String (fun a b => byte_len b ≤ byte_len a) :=
  ⟨fun a b => Nat.le_total (byte_len b) (byte_len a)⟩

instance : IsTrans String (fun a b => byte_len b ≤ byte_len a) :=
  ⟨fun _ _ _ hab hbc => Nat.le_trans hbc hab⟩

/-- The per-element event mapping of ncevents_xml2responses (lines 798-831):
the network walk used by the file_restored arm is abstracted as the function
sub_path_expand. -/
def ncevents_of_element (sub_path_expand : String → List String)
    (activity_type : Option ActivityType)
    (files new_files old_files : List String) : List NCEvent :=
  let old_files := sort_old_files old_files
  match activity_type with
  | some .FileCreated => files.map NCEvent.Create
  | some .FileDeleted => files.map NCEvent.Delete
  | some .FileChanged =>
    match new_files with
    | new_file :: _ => old_files.map (fun f => NCEvent.Move f new_file)
    | [] => files.map NCEvent.Modify
  | some .FileRestored => (files.map (fun f => (sub_path_expand f).map NCEvent.Create)).flatten
  | none => []

/-! ## The nc2l cancellation book (src/local_listen.rs, src/nc_listen.rs) -/

/-- haveto_cancel_target from src/local_listen.rs lines 410-423, with the
HashMap<String, usize> as an association list threaded in and out. -/
def haveto_cancel_target (p : String) (book : List (String × Nat)) :
    Bool × List (String × Nat) :=
  match removeA book p with
  | (none, _) => (false, book)
  | (some count, book') =>
    if count - 1 > 0 then (true, insertA book' p (count - 1)) else (true, book')

/-- The counter bump of update_and_download (src/nc_listen.rs lines
1153-1156): let counter = nc2l_cancel_map.entry(item).or_insert(0);
counter += 1. -/
def inc_cancel_map (book : List (String × Nat)) (item : String) : List (String × Nat) :=
  insertA book item ((lookupA book item).getD 0 + 1)

inductive ModifyAction where
  | droppedExcluded
  | droppedCancelled
  | proceeds
deriving DecidableEq, Repr

/-- The guard prefix of the LocalEvent::Modify arm of deal_local_event
(src/local_listen.rs lines 282-291): the exclude filter verdict judge(p) is
passed in as a boolean; a cancelled or excluded event performs no tree or
Server action. -/
def modify_precheck (judge_p : Bool) (p : String) (book : List (String × Nat)) :
    ModifyAction × List (String × Nat) :=
  if !judge_p then (.droppedExcluded, book)
  else
    match haveto_cancel_target p book with
    | (true, book') => (.droppedCancelled, book')
    | (false, book') => (.proceeds, book')

theorem removeA_insertA {α : Type} (l : List (String × α)) (k : String) (v : α) :
    removeA (insertA l k v) k = (some v, (removeA l k).2) := by
  induction l with
  | nil => simp [insertA, removeA]
  | cons kw rest ih =>
    obtain ⟨k', w⟩ := kw
    by_cases hk : k' = k
    · subst hk
      simp [insertA, removeA]
    · simp [insertA, hk, removeA, ih]

theorem removeA_of_lookup_none {α : Type} (l : List (String × α)) (k : String)
    (h : lookupA l k = none) : removeA l k = (none, l) := by
  induction l with
  | nil => simp [removeA]
  | cons kw rest ih =>
    obtain ⟨k', w⟩ := kw
    by_cases hk : k' = k
    · simp [lookupA, hk] at h
    · simp [lookupA, hk] at h
      simp [removeA, hk, ih h]

theorem lookupA_removeA_ne {α : Type} (l : List (String × α)) (k q : String)
    (h : q ≠ k) : lookupA (removeA l k).2 q = lookupA l q := by
  induction l with
  | nil => simp [removeA]
  | cons kw rest ih =>
    obtain ⟨k', w⟩ := kw
    by_cases hk : k' = k
    · subst hk
      simp [removeA, lookupA, Ne.symm h]
    · by_cases hq : k' = q
      · simp [removeA, hk, lookupA, hq, h]
      · simp [removeA, hk, lookupA, hq, ih]

/-- Cancelling right after an increment: the Modify is recognised (true) and
the book returns, as a map, to its pre-increment state. -/
theorem haveto_cancel_inc (book : List (String × Nat)) (p : String)
    (hpos : ∀ n, lookupA book p = some n → 0 < n) :
    (haveto_cancel_target p (inc_cancel_map book p)).1 = true ∧
    ∀ q, lookupA (haveto_cancel_target p (inc_cancel_map book p)).2 q = lookupA book q := by
  unfold haveto_cancel_target inc_cancel_map
  rw [removeA_insertA]
  cases h0 : lookupA book p with
  | none =>
    dsimp only
    rw [if_neg (by simp)]
    rw [removeA_of_lookup_none _ _ h0]
    exact ⟨rfl, fun q => rfl⟩
  | some m =>
    have hm : 0 < m := hpos m h0
    dsimp only
    rw [if_pos (by simpa using hm)]
    refine ⟨rfl, ?_⟩
    intro q
    by_cases hq : q = p
    · subst hq
      rw [lookupA_insertA_self, h0]
      simp
    · rw [lookupA_insertA_ne _ _ _ _ hq, lookupA_removeA_ne _ _ _ hq]

/-! ## The activity cursor (src/nc_listen.rs lines 29-47, src/main.rs 177-205) -/

structure NCState where
  latest_activity_id : String
deriving DecidableEq, Repr

/-- Digit-string evaluation used by parse::<usize>().  The model is
arbitrary precision: the Rust overflow failure for values beyond usize::MAX
is not modelled. -/
def parseDigitsAux : List Char → Nat → Option Nat
  | [], acc => some acc
  | c :: rest, acc =>
    if c.isDigit then parseDigitsAux rest (acc * 10 + (c.toNat - '0'.toNat)) else none

/-- Rust str::parse::<usize>: an optional leading plus sign followed by at
least one digit. -/
def parse_usize (s : String) : Option Nat :=
  match s.data with
  | [] => none
  | '+' :: rest => if rest.isEmpty then none else parseDigitsAux rest 0
  | cs => parseDigitsAux cs 0

/-- NCState::eq_or_newer_than.  The Rust .expect panic on an unparsable id is
modelled as none. -/
def NCState.eq_or_newer_than (self other : NCState) : Option Bool :=
  match parse_usize self.latest_activity_id, parse_usize other.latest_activity_id with
  | some s, some o => some (decide (o ≤ s))
  | _, _ => none

/-- The Command::NCEvents arm of the dispatcher (src/main.rs lines 177-205,
network connected): compare first, drop the batch (keeping the old state)
when the current state is equal or newer, otherwise adopt the new state and
then apply the events.  The returned flag says whether the events batch is
applied. -/
def handle_ncevents (cur new_state : NCState) : Option (NCState × Bool) :=
  match cur.eq_or_newer_than new_state with
  | none => none
  | some true => some (cur, false)
  | some false => some (new_state, true)

/-! ## The claims -/

/-- C4, counterexample: prepare_path_vec does not return an empty head for
the root nor slash-free intermediate segments; prepare_path_vec("/") is
["/"], not [""], and prepare_path_vec("/a/b/c.md") keeps a trailing slash on
every non-final segment. -/
theorem claim_C4_counterexample :
    Entry.prepare_path_vec "/" ≠ [""] ∧
    Entry.prepare_path_vec "/a/b/c.md" ≠ ["c.md", "b", "a", ""] := by
  constructor <;> decide

/-- C4 (amended): prepare_path_vec splits a canonical path into a reversed
stack of segments in which every non-final segment keeps its trailing slash
and the root is represented by a head "/": prepare_path_vec("/") = ["/"] and
prepare_path_vec("/a/b/c.md") = ["c.md", "b/", "a/", "/"]. -/
theorem claim_C4 :
    Entry.prepare_path_vec "/" = ["/"] ∧
    Entry.prepare_path_vec "/a/b/c.md" = ["c.md", "b/", "a/", "/"] := by
  constructor <;> decide

/-- C5: a file_changed element with at least one new-file path yields exactly
one Move per old-file path, all targeting the single (first listed, i.e.
newest) new-file path, the old-file paths being the original ones reordered
by descending byte length (stable); with no new-file path it yields one
Modify per file path; in particular newfile=[/q], oldfiles=[/a,/ab] gives
[Move(/ab,/q), Move(/a,/q)]. -/
theorem claim_C5 :
    (∀ (sub : String → List String) (files : List String) (q : String)
        (nf old : List String),
      ncevents_of_element sub (some .FileChanged) files (q :: nf) old
        = (sort_old_files old).map (fun f => NCEvent.Move f q)) ∧
    (∀ old : List String, (sort_old_files old).Perm old) ∧
    (∀ old : List String,
      (sort_old_files old).Pairwise (fun a b => byte_len b ≤ byte_len a)) ∧
    (∀ (sub : String → List String) (files old : List String),
      ncevents_of_element sub (some .FileChanged) files [] old
        = files.map NCEvent.Modify) ∧
    (∀ sub : String → List String,
      ncevents_of_element sub (some .FileChanged) [] ["/q"] ["/a", "/ab"]
        = [NCEvent.Move "/ab" "/q", NCEvent.Move "/a" "/q"]) := by
  refine ⟨fun sub files q nf old => rfl, fun old => List.perm_insertionSort _ old,
    fun old => List.sorted_insertionSort _ old, fun sub files old => rfl, fun sub => ?_⟩
  rfl

/-- Fixture: an empty directory root. -/
def rootW : Entry := .mk "" false .UpToDate .Directory []

/-- Fixture: a file entry named x. -/
def eW : Entry := .mk "x" false .NeedUpdate (.File (some "W")) []

/-- Fixture: a file entry named b with status UpToDate. -/
def eB : Entry := .mk "b" false .UpToDate (.File (some "t")) []

/-- C1, counterexample: append(T, "/a/b", E, Create, false) on an empty root
materialises the placeholder directory a, and pop(T, "/a/b") removes only
the leaf, so the combined pair leaves the placeholder behind (the tree is
changed) and the returned entry carries status NeedUpdate instead of E's
original UpToDate (the handle's status was overwritten by append). -/
theorem claim_C1_counterexample :
    (Entry.pop (Entry.append rootW "/a/b" eB .Create false).2 "/a/b").2 ≠ rootW ∧
    (Entry.pop (Entry.append rootW "/a/b" eB .Create false).2 "/a/b").1 ≠ .ok (some eB) := by
  constructor
  · intro h
    have hh := congrArg (fun e => e.children.length) h
    have h1 : (Entry.pop (Entry.append rootW "/a/b" eB .Create false).2 "/a/b").2
        = Entry.mk "" false .UpToDate .Directory
            [("a/", Entry.mk "a" true .NeedUpdate .Directory [])] := rfl
    rw [h1] at hh
    simp [rootW] at hh
  · intro h
    have h1 : (Entry.pop (Entry.append rootW "/a/b" eB .Create false).2 "/a/b").1
        = .ok (some (Entry.mk "b" false .NeedUpdate (.File (some "t")) [])) := rfl
    rw [h1] at h
    have hh := congrArg (fun r =>
      match r with
      | Except.ok (some e) => e.status
      | _ => EntryStatus.Error) h
    simp [eB] at hh

/-- C1 (amended): for every root-receiver tree, path and entry for which
append(T, p, E, Create, overwrite=false) succeeds without materialising any
intermediate placeholder (the returned list holds exactly the appended
entry), pop(T, p) then returns the very entry E — with its status set to
NeedUpdate by append and its parent reference cleared by pop — and the tree
is restored exactly to its original value. -/
theorem claim_C1 (root : Entry) (p : String) (E : Entry) (a : Entry × EntryStatus)
    (T' : Entry) (hroot : root.is_root = true)
    (happ : Entry.append root p E .Create false = (.ok [a], T')) :
    Entry.pop T' p = (.ok (some ((E.withStatus .NeedUpdate).withHasParent false)), root) :=
  Entry.pop_append_create hroot happ

theorem claim_C1_witness :
    Entry.pop (Entry.append rootW "/x" eW .Create false).2 "/x"
      = (.ok (some ((eW.withStatus .NeedUpdate).withHasParent false)), rootW) :=
  claim_C1 rootW "/x" eW (eW.withStatus .NeedUpdate, .NeedUpdate)
    (Entry.append rootW "/x" eW .Create false).2 rfl rfl

/-- Fixture: a directory d. -/
def dirD : Entry := .mk "d" true .UpToDate .Directory []

/-- Fixture: a root holding the directory d. -/
def rootD : Entry := .mk "" false .UpToDate .Directory [("d/", dirD)]

/-- Fixture: a file entry named x. -/
def eX : Entry := .mk "x" false .UpToDate (.File none) []

/-- C2, counterexample: moving file x onto "/d" with overwrite while d exists
and IS a directory does not place x inside d (the claim's condition is the
path's trailing slash, not the target's type): x is renamed to d and inserted
next to the directory, and nothing appears at "/d/x". -/
theorem claim_C2_counterexample :
    Entry.get rootD "/d/" = .ok (some dirD) ∧
    dirD.type_.is_dir = true ∧
    Entry.get (Entry.append rootD "/d" eX .Move true).2 "/d/x" = .ok none ∧
    Entry.get (Entry.append rootD "/d" eX .Move true).2 "/d"
      = .ok (some (.mk "d" true .NeedUpdate (.File none) [])) :=
  ⟨rfl, rfl, rfl, rfl⟩

/-- C2 (amended): in Move mode with overwrite, when the final path segment
differs from the moved entry's name, the decision is made by already-exists
together with the path string's trailing slash (EntryType::guess_from_name),
not by the actual type of the existing target — for every moved entry E,
file or directory: if something resolves at p and p ends with "/", E is
attached inside the directory named by p keeping its own name (it is then
found at p ++ E.get_name); otherwise E is renamed to the final segment of p
and inserted at p (a file is then found at p, a directory at p ++ "/"). -/
theorem claim_C2 (root : Entry) (p : String) (E tgt : Entry) (pv0 : String)
    (pvrest : List String)
    (hroot : root.is_root = true) (hdir : root.type_.is_file = false) (hL : Legal root)
    (hEn : ∀ c ∈ E.name.data, c ≠ '/') (hEne : E.name ≠ "")
    (hpv : Entry.prepare_path_vec p = pv0 :: pvrest) (hneq : pv0 ≠ E.get_name) :
    (endsSlash p = true → Entry.get root p = .ok (some tgt) →
      Entry.get (Entry.append root p E .Move true).2 (p ++ E.get_name)
        = .ok (some ((E.withStatus .NeedUpdate).withHasParent true))) ∧
    (endsSlash p = false → p ≠ "" → Entry.append_existing root p = .ok true →
      Entry.get (Entry.append root p E .Move true).2
          (if E.type_.is_file then p else p ++ "/")
        = .ok (some (((E.set_name pv0).withStatus .NeedUpdate).withHasParent true))) :=
  ⟨fun hp htgt => Entry.append_move_inside hroot hdir hL hEn hEne hp hpv hneq htgt,
   fun hp hpne hex => Entry.append_move_rename hroot hdir hL hp hpne hpv hneq hex⟩

theorem legal_rootD : Legal rootD := by
  refine Legal.intro _ (by decide) (fun h => by simp [rootD, EntryType.is_file] at h) ?_ ?_ ?_
  · intro kc hkc
    simp [rootD] at hkc
    rw [hkc]
    decide
  · intro kc hkc
    simp [rootD] at hkc
    rw [hkc]
    decide
  · intro kc hkc
    simp [rootD] at hkc
    rw [hkc]
    exact Legal.intro _ (by decide) (fun h => by simp [dirD, EntryType.is_file] at h)
      (fun kc hk => by simp [dirD] at hk) (fun kc hk => by simp [dirD] at hk)
      (fun kc hk => by simp [dirD] at hk)

/-- Fixture: a directory entry named m, to be moved. -/
def eM : Entry := .mk "m" false .UpToDate .Directory []

theorem claim_C2_witness :
    Entry.get (Entry.append rootD "/d/" eM .Move true).2 ("/d/" ++ eM.get_name)
      = .ok (some ((eM.withStatus .NeedUpdate).withHasParent true)) :=
  (claim_C2 rootD "/d/" eM dirD "d/" ["/"] rfl rfl legal_rootD (by decide) (by decide)
    rfl (by decide)).1 rfl rfl

/-- C3, counterexample: the placeholder directory a materialised by
append(root, "/a/b", E, Create, false) has status NeedUpdate in the tree
(Entry::new always sets NeedUpdate), not UpToDate as claimed; UpToDate only
appears as the tag paired with the placeholder in the returned list. -/
theorem claim_C3_counterexample :
    Entry.get (Entry.append rootW "/a/b" eB .Create false).2 "/a/"
      = .ok (some (Entry.mk "a" true .NeedUpdate .Directory
          [("b", Entry.mk "b" true .NeedUpdate (.File (some "t")) [])])) ∧
    (Entry.mk "a" true .NeedUpdate .Directory
        [("b", Entry.mk "b" true .NeedUpdate (.File (some "t")) [])]).status
      ≠ EntryStatus.UpToDate := by
  exact ⟨rfl, by decide⟩

/-- Inversion of every successful Entry::append on a root receiver: whatever
the mode and overwrite flag, the result was produced by one append_rec
descent (in Move mode possibly on an extended path vector or with the entry
renamed). -/
theorem Entry.append_ok_rec {root : Entry} {p : String} {E : Entry} {mode : AppendMode}
    {ow : Bool} {acc : List (Entry × EntryStatus)} {T' : Entry}
    (hroot : root.is_root = true)
    (happ : Entry.append root p E mode ow = (.ok acc, T')) :
    ∃ rpv E', Entry.append_rec root rpv E' mode = (.ok acc, T') := by
  unfold Entry.append at happ
  rw [if_neg (by rw [hroot]; simp)] at happ
  cases hex : Entry.append_existing root p with
  | error er =>
    rw [hex] at happ
    simp at happ
  | ok ae =>
    rw [hex] at happ
    dsimp only at happ
    split at happ
    · simp at happ
    · cases hpv : Entry.prepare_path_vec p with
      | nil =>
        rw [hpv] at happ
        simp at happ
      | cons pv0 pvrest =>
        rw [hpv] at happ
        dsimp only at happ
        split at happ
        · cases mode with
          | Move =>
            dsimp only at happ
            split at happ
            · exact ⟨_, _, happ⟩
            · exact ⟨_, _, happ⟩
          | Create =>
            dsimp only at happ
            simp at happ
        · exact ⟨_, _, happ⟩

/-- C3 (amended): every successful append(root, p, E, mode, overwrite)
returns exactly one list element per intermediate directory materialised
along the descent — the placeholder snapshot (a fresh directory entry whose
own status is NeedUpdate, Entry::new never sets UpToDate) tagged with the
intended status UpToDate — followed, in Create mode only, by the appended
entry (status forced to NeedUpdate) tagged NeedUpdate. -/
theorem claim_C3 (root : Entry) (p : String) (E : Entry) (mode : AppendMode) (ow : Bool)
    (acc : List (Entry × EntryStatus)) (T' : Entry)
    (hroot : root.is_root = true)
    (happ : Entry.append root p E mode ow = (.ok acc, T')) :
    ∃ rpv E', Entry.append_rec root rpv E' mode = (.ok acc, T') ∧
      acc = (missingSegs root rpv).map
              (fun s => (Entry.new s .Directory, EntryStatus.UpToDate))
            ++ (if mode = .Create
                then [(E'.withStatus .NeedUpdate, EntryStatus.NeedUpdate)] else []) := by
  obtain ⟨rpv, E', hrec⟩ := Entry.append_ok_rec hroot happ
  exact ⟨rpv, E', hrec, Entry.append_rec_acc_mode rpv root E' mode acc T' hrec⟩

theorem claim_C3_witness :
    ∃ rpv E', Entry.append_rec rootW rpv E' .Create
        = (.ok [(Entry.new "a/" .Directory, EntryStatus.UpToDate),
                (eB.withStatus .NeedUpdate, EntryStatus.NeedUpdate)],
           (Entry.append rootW "/a/b" eB .Create false).2) ∧
      [(Entry.new "a/" .Directory, EntryStatus.UpToDate),
       (eB.withStatus .NeedUpdate, EntryStatus.NeedUpdate)]
        = (missingSegs rootW rpv).map
            (fun s => (Entry.new s .Directory, EntryStatus.UpToDate))
          ++ (if AppendMode.Create = .Create
              then [(E'.withStatus .NeedUpdate, EntryStatus.NeedUpdate)] else []) :=
  claim_C3 rootW "/a/b" eB .Create false
    [(Entry.new "a/" .Directory, EntryStatus.UpToDate),
     (eB.withStatus .NeedUpdate, EntryStatus.NeedUpdate)]
    (Entry.append rootW "/a/b" eB .Create false).2 rfl rfl

/-- C6: each remote-driven local file write bumps nc2l_cancel_map[p] by
exactly one (other keys untouched), and the next locally observed Modify(p)
— when p passes the exclude filter — is dropped as cancelled, no tree or
Server action being taken, while the counter returns to its pre-increment
value (the key disappears when it reaches zero).  The hypothesis states the
book invariant that stored counters are positive. -/
theorem claim_C6 (book : List (String × Nat)) (p : String)
    (hpos : ∀ n, lookupA book p = some n → 0 < n) :
    lookupA (inc_cancel_map book p) p = some ((lookupA book p).getD 0 + 1) ∧
    (∀ q, q ≠ p → lookupA (inc_cancel_map book p) q = lookupA book q) ∧
    (modify_precheck true p (inc_cancel_map book p)).1 = ModifyAction.droppedCancelled ∧
    (∀ q, lookupA (modify_precheck true p (inc_cancel_map book p)).2 q = lookupA book q) := by
  have h := haveto_cancel_inc book p hpos
  have hpre : modify_precheck true p (inc_cancel_map book p)
      = (ModifyAction.droppedCancelled, (haveto_cancel_target p (inc_cancel_map book p)).2) := by
    unfold modify_precheck
    rw [if_neg (by simp)]
    rcases hval : haveto_cancel_target p (inc_cancel_map book p) with ⟨b, book'⟩
    have hb : b = true := by
      have := h.1
      rw [hval] at this
      exact this
    subst hb
    rfl
  refine ⟨lookupA_insertA_self _ _ _, ?_, ?_, ?_⟩
  · intro q hq
    exact lookupA_insertA_ne _ _ _ _ hq
  · rw [hpre]
  · intro q
    rw [hpre]
    exact h.2 q

theorem claim_C6_witness :
    lookupA (inc_cancel_map [("/f", 1)] "/f") "/f" = some 2 ∧
    (modify_precheck true "/f" (inc_cancel_map [("/f", 1)] "/f")).1
      = ModifyAction.droppedCancelled ∧
    lookupA (modify_precheck true "/f" (inc_cancel_map [("/f", 1)] "/f")).2 "/f" = some 1 := by
  have h := claim_C6 [("/f", 1)] "/f" (by
    intro n hn
    simp [lookupA] at hn
    omega)
  exact ⟨h.1, h.2.2.1, (h.2.2.2 "/f").trans rfl⟩

/-- C7: while connected, NCEvents(events, new_state) first compares
new_state with the current cursor as unsigned integers: an equal-or-older
new_state drops the whole batch leaving the state unchanged, a newer one is
adopted and only then are the events applied; in either case the stored
cursor never decreases. -/
theorem claim_C7 (cur new_state : NCState) (c n : Nat)
    (hc : parse_usize cur.latest_activity_id = some c)
    (hn : parse_usize new_state.latest_activity_id = some n) :
    handle_ncevents cur new_state
      = some (if n ≤ c then (cur, false) else (new_state, true)) ∧
    (∀ st applied, handle_ncevents cur new_state = some (st, applied) →
      ∃ v, parse_usize st.latest_activity_id = some v ∧ c ≤ v ∧
        (applied = true ↔ c < n)) := by
  have heq : cur.eq_or_newer_than new_state = some (decide (n ≤ c)) := by
    unfold NCState.eq_or_newer_than
    rw [hc, hn]
  have hh : handle_ncevents cur new_state
      = some (if n ≤ c then (cur, false) else (new_state, true)) := by
    unfold handle_ncevents
    rw [heq]
    by_cases hnc : n ≤ c
    · rw [if_pos hnc]
      simp [hnc]
    · rw [if_neg hnc]
      simp [hnc]
  refine ⟨hh, ?_⟩
  intro st applied hst
  rw [hh] at hst
  by_cases hnc : n ≤ c
  · rw [if_pos hnc] at hst
    injection hst with hst
    injection hst with h1 h2
    subst h1
    subst h2
    exact ⟨c, hc, Nat.le_refl c, by simp; omega⟩
  · rw [if_neg hnc] at hst
    injection hst with hst
    injection hst with h1 h2
    subst h1
    subst h2
    exact ⟨n, hn, by omega, by simp; omega⟩

theorem claim_C7_witness :
    handle_ncevents (NCState.mk "100") (NCState.mk "150")
      = some (NCState.mk "150", true) := by
  have h := (claim_C7 (NCState.mk "100") (NCState.mk "150") 100 150
    (by decide) (by decide)).1
  rw [h]
  decide

/-- C8: Entry::get rejects non-root receivers (returns absent), returns the
root itself for the path "/", and — in a legal directory-rooted tree — only
ever returns a File entry resolved at the final segment of the path, that
segment being the file's name; a File met at a non-final segment never
resolves (directory keys carry a trailing slash), so such lookups return
absent. -/
theorem claim_C8 (root : Entry) (path : String) (f : Entry)
    (hroot : root.is_root = true) (hdir : root.type_.is_file = false) (hL : Legal root) :
    (∀ (e : Entry) (q : String), e.is_root = false → Entry.get e q = .ok none) ∧
    Entry.get root "/" = .ok (some root) ∧
    (Entry.get root path = .ok (some f) → f.type_.is_file = true →
      (Entry.prepare_path_vec path).head? = some f.get_name) := by
  refine ⟨?_, ?_, ?_⟩
  · intro e q he
    unfold Entry.get
    rw [he]
    rfl
  · unfold Entry.get
    rw [if_neg (by rw [hroot]; simp)]
    rfl
  · intro hg hf
    unfold Entry.get at hg
    rw [if_neg (by rw [hroot]; simp)] at hg
    match hpv : Entry.prepare_path_vec path with
    | [] =>
      rw [hpv] at hg
      simp at hg
    | [x] =>
      rw [hpv] at hg
      by_cases hx : x = "/"
      · rw [if_neg (by simp), if_pos (by simp), if_pos (by simp [hx])] at hg
        injection hg with hg
        injection hg with hg
        rw [← hg] at hf
        rw [hf] at hdir
        simp at hdir
      · rw [if_neg (by simp), if_pos (by simp), if_neg (by simp [hx])] at hg
        simp at hg
    | x :: y :: rest =>
      rw [hpv] at hg
      rw [if_neg (by simp), if_neg (by simp)] at hg
      have hsl : ∀ z ∈ ((x :: y :: rest).reverse).dropLast, endsSlash z = true := by
        intro z hz
        have hrw : ((x :: y :: rest).reverse).dropLast = (y :: rest).reverse := by
          rw [List.reverse_cons, List.dropLast_concat]
        rw [hrw, List.mem_reverse] at hz
        exact (ppv_rest_facts hpv).2 z hz
      have hlast := Entry.get_rec_file_leaf ((x :: y :: rest).reverse) root f hL hsl hg hf
      rw [List.getLast?_reverse] at hlast
      exact hlast

/-- Fixture: a file entry named f. -/
def fileC8 : Entry := .mk "f" true .UpToDate (.File none) []

/-- Fixture: a root holding the single file f. -/
def rootC8 : Entry := .mk "" false .UpToDate .Directory [("f", fileC8)]

theorem legal_rootC8 : Legal rootC8 := by
  refine Legal.intro _ (by decide) (fun h => by simp [rootC8, EntryType.is_file] at h)
    ?_ ?_ ?_
  · intro kc hkc
    simp [rootC8] at hkc
    rw [hkc]
    decide
  · intro kc hkc
    simp [rootC8] at hkc
    rw [hkc]
    decide
  · intro kc hkc
    simp [rootC8] at hkc
    rw [hkc]
    exact Legal.intro _ (by decide) (fun _ => rfl)
      (fun kc hk => by simp [fileC8] at hk) (fun kc hk => by simp [fileC8] at hk)
      (fun kc hk => by simp [fileC8] at hk)

theorem claim_C8_witness :
    Entry.get rootC8 "/" = .ok (some rootC8) ∧
    (Entry.prepare_path_vec "/f").head? = some fileC8.get_name := by
  have h := claim_C8 rootC8 "/f" fileC8 rfl rfl legal_rootC8
  exact ⟨h.2.1, h.2.2 rfl rfl⟩

/-- C9: when get(T, p) already resolves to an entry, a Create-mode append
with overwrite disabled fails with the Already-Exists error before touching
the tree, which is returned unchanged. -/
theorem claim_C9 (root : Entry) (p : String) (E tgt : Entry)
    (hroot : root.is_root = true) (hdir : root.type_.is_file = false)
    (hg : Entry.get root p = .ok (some tgt)) :
    Entry.append root p E .Create false = (.error .alreadyExist, root) := by
  unfold Entry.append
  rw [if_neg (by rw [hroot]; simp)]
  have hex : Entry.append_existing root p = .ok true := by
    unfold Entry.append_existing
    obtain ⟨r1, hg1⟩ := Entry.get_ok root (add_last_slash p) hdir
    rw [hg1]
    dsimp only
    cases r1 with
    | some x => rfl
    | none =>
      simp only [Option.isSome_none, Bool.false_eq_true, if_false]
      rw [hg]
      rfl
  rw [hex]
  rfl

theorem claim_C9_witness :
    Entry.append rootD "/d/" eX .Create false = (.error .alreadyExist, rootD) :=
  claim_C9 rootD "/d/" eX dirD rfl rfl rfl

/-- C10: the root-only tree operations called on a non-root receiver return
silently — pop yields Ok(None) and append yields Ok with an empty list —
leaving the receiver untouched. -/
theorem claim_C10 (e : Entry) (path : String) (entry : Entry) (mode : AppendMode)
    (ow : Bool) (h : e.is_root = false) :
    Entry.pop e path = (.ok none, e) ∧ Entry.append e path entry mode ow = (.ok [], e) := by
  constructor
  · unfold Entry.pop
    rw [h]
    rfl
  · unfold Entry.append
    rw [h]
    rfl

theorem claim_C10_witness :
    Entry.pop dirD "/x" = (.ok none, dirD) ∧
    Entry.append dirD "/x" eX .Create false = (.ok [], dirD) :=
  claim_C10 dirD "/x" eX .Create false rfl
